/-
Verification of the graph construction, cycle detection, leveling and
rendering engine of the depgraph tool (graph_output.go), as a shallow
embedding in Lean 4.

Go maps are embedded as association lists in iteration order; map-valued
intermediate state is embedded as Lean functions; string sets as lists of
keys.  All functions mirror the corresponding Go functions statement by
statement; sorting mirrors sort.Strings (any two sorted permutations of
the same list are equal, so insertion sort is extensionally faithful).
-/
import Mathlib

namespace Depgraph

/-- Embedding of graph.ModuleInfo: one discovered module record.
`deps` is the Deps map in Go-map iteration order (keys unique). -/
structure ModuleInfo where
  path : String
  repoPath : String
  isFork : Bool
  originalModulePath : String
  owner : String
  ownerIdx : Nat
  deps : List (String × String)
  fetched : Bool
deriving DecidableEq, Repr

/-- The modulesFoundInOwners map, as an association list in iteration order. -/
abbrev Modules := List (String × ModuleInfo)

/-- Keys of a record's Deps map. -/
def depKeys (info : ModuleInfo) : List String := info.deps.map Prod.fst

/-- Go map read modulesFoundInOwners[k]. -/
def mlookup (m : Modules) (k : String) : Option ModuleInfo := (List.lookup k m)

/-- Lexicographic comparison of character lists (sort.Strings compares
UTF-8 bytes; UTF-8 byte order coincides with code-point order). -/
def charsLe : List Char → List Char → Bool
  | [], _ => true
  | _ :: _, [] => false
  | a :: as, b :: bs => if a = b then charsLe as bs else decide (a < b)

def strLe (a b : String) : Bool := charsLe a.data b.data

/-- Strict version of the same comparison (Go string <). -/
def charsLt : List Char → List Char → Bool
  | [], [] => false
  | [], _ :: _ => true
  | _ :: _, [] => false
  | a :: as, b :: bs => if a = b then charsLt as bs else decide (a < b)

def strLt (a b : String) : Bool := charsLt a.data b.data

/-- sort.Strings. -/
def sortStr (l : List String) : List String :=
  List.insertionSort (fun a b => strLe a b = true) l

/- ---------------------------------------------------------------------
   determineNodesToGraph (graph_output.go lines 177-250)
   --------------------------------------------------------------------- -/

/-- Pass 1: include every fetched non-fork record (by map key). -/
def pass1Nodes (m : Modules) : List String :=
  (m.filter fun p => p.2.fetched && !p.2.isFork).map Prod.fst

/-- Pass 1: dependencies referenced by included non-forks. -/
def pass1Referenced (m : Modules) : List String :=
  ((m.filter fun p => p.2.fetched && !p.2.isFork).map fun p => depKeys p.2).flatten

/-- Pass 2 inner check: the dependency is an included node backed by a
non-fork record. -/
def depIsIncludedNonFork (m : Modules) (nodes1 : List String) (d : String) : Bool :=
  nodes1.contains d &&
    (match mlookup m d with
     | some di => !di.isFork
     | none => false)

/-- Pass 2: forks (by map key) that depend on an included non-fork. -/
def forksDependingOnNonFork (m : Modules) : List String :=
  (m.filter fun p => p.2.fetched && p.2.isFork &&
      (depKeys p.2).any (depIsIncludedNonFork m (pass1Nodes m))).map Prod.fst

/-- Pass 3 body for one map entry: include a fetched fork if it depends on a
non-fork or its key is currently referenced; when included, add its
dependencies to the referenced set.  State: (nodesToGraph, referencedModules). -/
def pass3Step (fdnf : List String) (acc : List String × List String)
    (p : String × ModuleInfo) : List String × List String :=
  if p.2.fetched && p.2.isFork && (fdnf.contains p.1 || acc.2.contains p.1) then
    (acc.1 ++ [p.1], acc.2 ++ (depKeys p.2).filter (fun d => !acc.2.contains d))
  else acc

/-- Pass 3 over the map in iteration order. -/
def pass3 (m : Modules) : List String × List String :=
  m.foldl (pass3Step (forksDependingOnNonFork m)) (pass1Nodes m, pass1Referenced m)

/-- determineNodesToGraph: the final node set (as a list of keys; only
membership is ever consumed downstream). -/
def determineNodesToGraph (m : Modules) (allPaths : List String) (noExt : Bool) :
    List String :=
  (pass3 m).1 ++ (if noExt then [] else
    allPaths.filter (fun p =>
      (mlookup m p).isNone && (pass3 m).2.contains p && !(pass3 m).1.contains p))

/- ---------------------------------------------------------------------
   buildReverseGraphAndDetectCycles (graph_output.go lines 27-117)
   --------------------------------------------------------------------- -/

/-- Reversed in-degree of a node: the number of its dependencies that are
also in the node set (0 for nodes without a record or outside the set). -/
def inDeg (m : Modules) (ns : List String) (u : String) : Nat :=
  if ns.contains u then
    match mlookup m u with
    | some info => ((depKeys info).filter (fun d => ns.contains d)).length
    | none => 0
  else 0

/-- Reverse adjacency: the sources (in map iteration order) that depend on
`d`, both endpoints restricted to the node set. -/
def revAdj (m : Modules) (ns : List String) (d : String) : List String :=
  if ns.contains d then
    (m.filter fun p => ns.contains p.1 && (depKeys p.2).contains d).map Prod.fst
  else []

/-- State of the cycle-detection Kahn loop. -/
structure DetState where
  queue : List String
  deg : String → Int
  processed : List String

/-- One neighbor visit: decrement, and enqueue on reaching zero. -/
def decStep (st : (String → Int) × List String) (v : String) :
    (String → Int) × List String :=
  let d := st.1 v - 1
  (fun x => if x == v then d else st.1 x, if d == 0 then st.2 ++ [v] else st.2)

/-- Visit all neighbors of the popped node. -/
def processNeighbors (deg : String → Int) (nbrs : List String) :
    (String → Int) × List String :=
  nbrs.foldl decStep (deg, [])

/-- The detection Kahn loop: pop the head, decrement dependents, keep the
queue sorted (fuel-bounded; the fuel used below provably suffices). -/
def detRun (radj : String → List String) : Nat → DetState → DetState
  | 0, st => st
  | fuel+1, st =>
    match st.queue with
    | [] => st
    | u :: rest =>
      let pn := processNeighbors st.deg (sortStr (radj u))
      detRun radj fuel ⟨sortStr (rest ++ pn.2), pn.1, st.processed ++ [u]⟩

/-- Full final state of the detection pass. -/
def detectState (m : Modules) (ns : List String) : DetState :=
  detRun (revAdj m ns) ns.length
    ⟨sortStr (ns.filter (fun v => inDeg m ns v == 0)),
     fun v => (inDeg m ns v : Int), []⟩

/-- The returned cycle-candidate set: nodes whose in-degree never reached
zero, when not all nodes were processed. -/
def detectCycles (m : Modules) (ns : List String) : List String :=
  if (detectState m ns).processed.length < ns.length then
    (sortStr ns).filter (fun v => decide (0 < (detectState m ns).deg v))
  else []

/- ---------------------------------------------------------------------
   isNodeDependedOn / filterOutUnusedNodes (graph_output.go lines 121-174)
   --------------------------------------------------------------------- -/

/-- True if some record whose Path is in the current cycle set lists `node`
among its dependencies. -/
def isNodeDependedOn (node : String) (m : Modules) (cyc : List String) : Bool :=
  m.any fun p => cyc.contains p.2.path && (depKeys p.2).contains node

/-- One refinement round: keep only candidates depended on from inside the set. -/
def filterStep (m : Modules) (cyc : List String) : List String :=
  cyc.filter fun node => isNodeDependedOn node m cyc

/-- Iterate refinement to a fixed point; also count the shrinking rounds.
Fuel-bounded structural recursion: each recursive step strictly shrinks the
list, so fuel `cyc.length` (used below) provably suffices. -/
def refineGo (m : Modules) : Nat → List String → List String × Nat
  | 0, cyc => (cyc, 0)
  | fuel+1, cyc =>
    if cyc.isEmpty then (cyc, 0) else
    if (filterStep m cyc).length = cyc.length then (cyc, 0)
    else
      ((refineGo m fuel (filterStep m cyc)).1,
       (refineGo m fuel (filterStep m cyc)).2 + 1)

def refineAux (m : Modules) (cyc : List String) : List String × Nat :=
  refineGo m cyc.length cyc

/-- filterOutUnusedNodes: the refined cycle set. -/
def filterOutUnusedNodes (m : Modules) (cyc : List String) : List String :=
  (refineAux m cyc).1

/-- Number of shrinking rounds the refinement performs. -/
def refineRounds (m : Modules) (cyc : List String) : Nat :=
  (refineAux m cyc).2

/- ---------------------------------------------------------------------
   generateDotOutput (graph_output.go lines 253-381)
   --------------------------------------------------------------------- -/

def orgNonForkColors : List String :=
  ["lightblue", "lightgreen", "lightsalmon", "lightgoldenrodyellow", "lightpink"]

def orgForkColors : List String :=
  ["steelblue", "darkseagreen", "coral", "darkkhaki", "mediumvioletred"]

def externalColor : String := "lightgrey"

def cycleColor : String := "red"

/-- Palette access colors[idx % len(colors)]. -/
def colorsGet (l : List String) (i : Nat) : String := l.getD (i % l.length) ""

/-- strings.ReplaceAll(s, quote, backslash-quote), character by character. -/
def escChars : List Char → List Char
  | [] => []
  | c :: rest => if c = '"' then '\\' :: '"' :: escChars rest else c :: escChars rest

/-- The DOT escaping applied to labels and versions. -/
def escQ (s : String) : String := ⟨escChars s.data⟩

/-- One node declaration of the DOT output, structured: the identifier as
emitted (verbatim), the label value as emitted (after escaping), the fill
color, and whether the cycle border attributes are added. -/
structure DotNode where
  id : String
  labelVal : String
  fill : String
  inCycle : Bool
deriving DecidableEq, Repr

/-- Node-declaration data for one node path, or none when it is skipped
(external node under noExt). -/
def dotNodeData (m : Modules) (cyc : List String) (noExt : Bool)
    (nodePath : String) : Option DotNode :=
  match mlookup m nodePath with
  | some info =>
    if !info.isFork then
      some ⟨nodePath, escQ nodePath, colorsGet orgNonForkColors info.ownerIdx,
            cyc.contains nodePath⟩
    else
      let label :=
        if info.originalModulePath ≠ "" then
          info.repoPath ++ "\\n(fork of " ++ info.originalModulePath ++ ")"
        else info.repoPath ++ "\\n(fork)"
      some ⟨nodePath, escQ label, colorsGet orgForkColors info.ownerIdx,
            cyc.contains nodePath⟩
  | none =>
    if noExt then none
    else some ⟨nodePath, escQ nodePath, externalColor, cyc.contains nodePath⟩

/-- The node declarations of the DOT output, in emission order. -/
def dotNodeDecls (m : Modules) (ns : List String) (cyc : List String)
    (noExt : Bool) : List DotNode :=
  (sortStr ns).filterMap (dotNodeData m cyc noExt)

/-- Printed form of one node declaration. -/
def dotNodeLine (n : DotNode) : String :=
  "  \"" ++ n.id ++ "\" [label=\"" ++ n.labelVal ++ "\", fillcolor=\"" ++ n.fill ++
    "\"" ++ (if n.inCycle then ", color=\"" ++ cycleColor ++ "\", penwidth=2" else "")
    ++ "];"

/-- One edge declaration, structured: endpoints as emitted (verbatim), the
version label as emitted (after escaping), and the cycle highlight flag. -/
structure DotEdge where
  src : String
  dst : String
  labelVal : String
  inCycle : Bool
deriving DecidableEq, Repr

/-- Edge declarations originating from one source node. -/
def dotEdgesFor (m : Modules) (ns cyc : List String) (src : String) :
    List DotEdge :=
  match mlookup m src with
  | none => []
  | some info =>
    (sortStr (depKeys info)).filterMap fun dep =>
      if ns.contains dep then
        some ⟨src, dep, escQ ((List.lookup dep info.deps).getD ""),
              cyc.contains src && cyc.contains dep⟩
      else none

/-- All edge declarations of the DOT output, in emission order. -/
def dotEdgeDecls (m : Modules) (ns cyc : List String) : List DotEdge :=
  ((sortStr ((m.filter (fun p => ns.contains p.1)).map Prod.fst)).map
    (dotEdgesFor m ns cyc)).flatten

/-- Printed form of one edge declaration. -/
def dotEdgeLine (e : DotEdge) : String :=
  "  \"" ++ e.src ++ "\" -> \"" ++ e.dst ++ "\" [label=\"" ++ e.labelVal ++ "\"" ++
    (if e.inCycle then ", color=\"" ++ cycleColor ++ "\", penwidth=1.5" else "")
    ++ "];"

/-- generateDotOutput: the lines printed to stdout, in order. -/
def generateDotLines (m : Modules) (ns : List String) (noExt left2Right : Bool) :
    List String :=
  let cyc := filterOutUnusedNodes m (detectCycles m ns)
  ["digraph dependencies \x7b",
   "  rankdir=\"" ++ (if left2Right then "LR" else "TB") ++ "\";",
   "  node [shape=box, style=\"rounded,filled\", fontname=\"Helvetica\"];",
   "  edge [fontname=\"Helvetica\", fontsize=10];",
   "", "  // Node Definitions"]
  ++ (dotNodeDecls m ns cyc noExt).map dotNodeLine
  ++ ["", "  // Edges (Dependencies)"]
  ++ (dotEdgeDecls m ns cyc).map dotEdgeLine
  ++ ["\x7d"]

/- ---------------------------------------------------------------------
   formatNodeForTopo / printLevel / performTopologicalSortAndPrint
   (graph_output.go lines 386-667)
   --------------------------------------------------------------------- -/

/-- Single-line rendering of a node in the leveled output. -/
def formatNodeForTopo (m : Modules) (nodePath : String) : String :=
  match mlookup m nodePath with
  | some info =>
    if info.isFork then
      if info.originalModulePath ≠ "" then
        if info.path == info.originalModulePath then
          info.repoPath ++ " (fork of " ++ info.originalModulePath ++ ")"
        else
          info.repoPath ++ " (" ++ info.path ++ " fork of " ++
            info.originalModulePath ++ ")"
      else info.repoPath ++ " (fork)"
    else nodePath
  | none => nodePath

/-- Write bidirPairs[k] = v (Go map assignment: overwrite or insert). -/
def alSet (al : List (String × String)) (k v : String) : List (String × String) :=
  if al.any (fun p => p.1 == k) then
    al.map (fun p => if p.1 == k then (k, v) else p)
  else al ++ [(k, v)]

/-- Scan one record's dependencies for mutual edges, recording each pair
under its lexicographically smaller member. -/
def bidirInsert (m : Modules) (ns : List String)
    (al : List (String × String)) (p : String × ModuleInfo) :
    List (String × String) :=
  if ns.contains p.1 then
    (depKeys p.2).foldl (fun al dep =>
      if ns.contains dep then
        match mlookup m dep with
        | some otherInfo =>
          if ns.contains otherInfo.path &&
              (List.lookup p.1 otherInfo.deps).isSome then
            if strLt p.1 dep then alSet al p.1 dep else alSet al dep p.1
          else al
        | none => al
      else al) al
  else al

/-- The bidirPairs table (smaller member ↦ partner), built in map order. -/
def bidirPairs (m : Modules) (ns : List String) : List (String × String) :=
  m.foldl (bidirInsert m ns) []

/-- printLevel: returns the printed lines and the updated processedForOutput
set.  Nothing is printed for an empty level. -/
def printLevel (m : Modules) (bp : List (String × String))
    (levelNodes : List String) (levelIndex : Nat) (levelName : String)
    (processedOut : List String) : List String × List String :=
  if levelNodes.isEmpty then ([], processedOut)
  else
    let step := fun (acc : List String × List String) (nodePath : String) =>
      if acc.2.contains nodePath then acc
      else
        match List.lookup nodePath bp with
        | some partner =>
          if levelNodes.contains partner then
            (acc.1 ++ ["  - " ++ formatNodeForTopo m nodePath ++ " <-> " ++
                formatNodeForTopo m partner],
             acc.2 ++ [nodePath, partner])
          else
            (acc.1 ++ ["  - " ++ formatNodeForTopo m nodePath],
             acc.2 ++ [nodePath])
        | none =>
          (acc.1 ++ ["  - " ++ formatNodeForTopo m nodePath],
           acc.2 ++ [nodePath])
    let r := (sortStr levelNodes).foldl step ([], processedOut)
    (("Level " ++ toString levelIndex ++ levelName ++ ":") :: r.1, r.2)

/-- State of the leveling pass: running in-degrees, processed nodes, the
level counter, the emitted levels (printed index, name, nodes), and whether
a negative-in-degree defect diagnostic was ever emitted. -/
structure TopoState where
  deg : String → Int
  processed : List String
  counter : Nat
  levels : List (Nat × String × List String)
  negFlag : Bool

/-- Accumulator while a level's queue is consumed. -/
structure RoundAcc where
  deg : String → Int
  processed : List String
  levelNodes : List String
  nextQueue : List String
  negFlag : Bool

/-- Pre-cycle phase, one dependent: decrement it when it is neither
processed nor a cycle node; enqueue on zero, flag on negative. -/
def ph1Dec (cyc : List String) (b : RoundAcc) (v : String) : RoundAcc :=
  if !b.processed.contains v && !cyc.contains v then
    { b with deg := fun x => if x == v then b.deg v - 1 else b.deg x,
             nextQueue := if b.deg v - 1 == 0 then b.nextQueue ++ [v]
                          else b.nextQueue,
             negFlag := b.negFlag || decide (b.deg v - 1 < 0) }
  else b

/-- Pre-cycle phase, one queue element: skip cycle nodes (defensively);
otherwise emit into the level and decrement the sorted dependents. -/
def ph1Step (radj : String → List String) (cyc : List String)
    (a : RoundAcc) (u : String) : RoundAcc :=
  if cyc.contains u then a
  else
    (sortStr (radj u)).foldl (ph1Dec cyc)
      { a with levelNodes := a.levelNodes ++ [u],
               processed := a.processed ++ [u] }

/-- Pre-cycle phase: emit one level per round until the queue empties.
The fuel used at the call site provably suffices. -/
def ph1Run (radj : String → List String) (cyc : List String) :
    Nat → List String → TopoState → TopoState
  | 0, _, st => st
  | fuel+1, queue, st =>
    if queue.isEmpty then st
    else
      let a := queue.foldl (ph1Step radj cyc)
        ⟨st.deg, st.processed, [], [], st.negFlag⟩
      let st' : TopoState :=
        ⟨a.deg, a.processed, st.counter + 1,
         st.levels ++ (if a.levelNodes.isEmpty then []
                       else [(st.counter, "", a.levelNodes)]),
         a.negFlag⟩
      ph1Run radj cyc fuel (sortStr a.nextQueue) st'

/-- Cycle phase queue preparation, one dependent: decrement it when
unprocessed; enqueue on zero unless already queued, flag on negative. -/
def cycDec (b : TopoState × List String) (dependent : String) :
    TopoState × List String :=
  if !b.1.processed.contains dependent then
    ({ b.1 with deg := fun x => if x == dependent then b.1.deg dependent - 1
                                else b.1.deg x,
                negFlag := b.1.negFlag || decide (b.1.deg dependent - 1 < 0) },
     if b.1.deg dependent - 1 == 0 then
       (if b.2.contains dependent then b.2 else b.2 ++ [dependent])
     else b.2)
  else b

/-- Cycle phase queue preparation for one cycle node: decrement its sorted
unprocessed dependents. -/
def cycleQueueStep (radj : String → List String)
    (b : TopoState × List String) (cycleNode : String) :
    TopoState × List String :=
  (sortStr (radj cycleNode)).foldl cycDec b

/-- Post-cycle phase, one dependent: decrement it when unprocessed;
enqueue on zero, flag on negative. -/
def ph3Dec (b : RoundAcc) (v : String) : RoundAcc :=
  if !b.processed.contains v then
    { b with deg := fun x => if x == v then b.deg v - 1 else b.deg x,
             nextQueue := if b.deg v - 1 == 0 then b.nextQueue ++ [v]
                          else b.nextQueue,
             negFlag := b.negFlag || decide (b.deg v - 1 < 0) }
  else b

/-- Post-cycle phase, one queue element: skip already-processed nodes
(defensively); otherwise emit and decrement the sorted dependents. -/
def ph3Step (radj : String → List String) (a : RoundAcc) (u : String) :
    RoundAcc :=
  if a.processed.contains u then a
  else
    (sortStr (radj u)).foldl ph3Dec
      { a with levelNodes := a.levelNodes ++ [u],
               processed := a.processed ++ [u] }

/-- Post-cycle phase: emit one level per round until the queue empties. -/
def ph3Run (radj : String → List String) :
    Nat → List String → TopoState → TopoState
  | 0, _, st => st
  | fuel+1, queue, st =>
    if queue.isEmpty then st
    else
      let a := queue.foldl (ph3Step radj)
        ⟨st.deg, st.processed, [], [], st.negFlag⟩
      let st' : TopoState :=
        ⟨a.deg, a.processed, st.counter + 1,
         st.levels ++ (if a.levelNodes.isEmpty then []
                       else [(st.counter, "", a.levelNodes)]),
         a.negFlag⟩
      ph3Run radj fuel (sortStr a.nextQueue) st'

/-- The three-phase leveling pass of performTopologicalSortAndPrint,
parametric in the cycle set it is given. -/
def topoLevelsWith (m : Modules) (ns : List String) (cyc : List String) :
    TopoState :=
  let radj := fun u => revAdj m ns u
  let q0 := sortStr (ns.filter fun v =>
    inDeg m ns v == 0 && !cyc.contains v)
  let st1 := ph1Run radj cyc (ns.length + 1) q0
    ⟨fun v => (inDeg m ns v : Int), [], 0, [], false⟩
  let cl := sortStr cyc
  let st2 := { st1 with processed := st1.processed ++ cl }
  if cl.isEmpty then st2
  else
    let st2' := { st2 with levels := st2.levels ++ [(st2.counter, " (Cycles)", cl)] }
    let pq := cl.foldl (cycleQueueStep radj) (st2', [])
    let st3 := { pq.1 with counter := pq.1.counter + 1 }
    ph3Run radj (ns.length + 1) (sortStr pq.2) st3

/-- The leveling pass with the cycle set the code computes. -/
def topoLevels (m : Modules) (ns : List String) : TopoState :=
  topoLevelsWith m ns (filterOutUnusedNodes m (detectCycles m ns))

/-- performTopologicalSortAndPrint: the lines printed to stdout, in order
(log output excluded). -/
def topoLines (m : Modules) (ns : List String) : List String :=
  let st := topoLevels m ns
  let bp := bidirPairs m ns
  (st.levels.foldl (fun (acc : List String × List String) lv =>
      let pl := printLevel m bp lv.2.2 lv.1 lv.2.1 acc.2
      (acc.1 ++ pl.1, pl.2))
    (["Topological Sort Levels (Leaves First):"], [])).1

/- ---------------------------------------------------------------------
   Quote-cleanliness predicate for the escaping property
   --------------------------------------------------------------------- -/

/-- Every double quote in the character list is preceded by a backslash. -/
def qc : List Char → Bool
  | [] => true
  | c :: rest =>
    if c = '"' then false
    else if c = '\\' then
      match rest with
      | [] => true
      | c' :: rest' => if c' = '"' then qc rest' else qc (c' :: rest')
    else qc rest

/- ---------------------------------------------------------------------
   Concrete inputs used as counterexamples and witnesses
   --------------------------------------------------------------------- -/

/-- A ↔ B mutual dependency, both primary records. -/
def mC6ex : Modules :=
  [("A", ⟨"A", "own/a", false, "", "own", 0, [("B", "v1")], true⟩),
   ("B", ⟨"B", "own/b", false, "", "own", 0, [("A", "v1")], true⟩)]

def nsC6ex : List String := determineNodesToGraph mC6ex ["A", "B"] false

/-- A ↔ B cycle plus C depending on A: C is a Kahn leftover but on no cycle. -/
def mC1ex : Modules :=
  [("A", ⟨"A", "own/a", false, "", "own", 0, [("B", "v")], true⟩),
   ("B", ⟨"B", "own/b", false, "", "own", 0, [("A", "v")], true⟩),
   ("C", ⟨"C", "own/c", false, "", "own", 0, [("A", "v")], true⟩)]

def nsC1ex : List String := determineNodesToGraph mC1ex ["A", "B", "C"] false

/-- Non-fork N references fork F1; fork F1 depends on fork F2. -/
def infoOrdN : ModuleInfo := ⟨"N", "own/n", false, "", "own", 0, [("F1", "v")], true⟩

def infoOrdF1 : ModuleInfo := ⟨"F1", "own/f1", true, "X", "own", 0, [("F2", "v")], true⟩

def infoOrdF2 : ModuleInfo := ⟨"F2", "own/f2", true, "Y", "own", 0, [], true⟩

/-- One iteration order of the same record map ... -/
def mOrd1 : Modules := [("N", infoOrdN), ("F1", infoOrdF1), ("F2", infoOrdF2)]

/-- ... and another iteration order of the same record map. -/
def mOrd2 : Modules := [("N", infoOrdN), ("F2", infoOrdF2), ("F1", infoOrdF1)]

def allOrd : List String := ["N", "F1", "F2"]

/-- Non-fork N references fork F; F depends on nothing (in particular not on
any internal primary), so its only inclusion reason is being referenced. -/
def mC2ex : Modules :=
  [("N", ⟨"N", "own/n", false, "", "own", 0, [("F", "v")], true⟩),
   ("F", ⟨"F", "o/f", true, "F", "own", 0, [], true⟩)]

def nsC2ex : List String := determineNodesToGraph mC2ex ["N", "F"] true

def cycC2ex : List String := filterOutUnusedNodes mC2ex (detectCycles mC2ex nsC2ex)

/-- A record whose dependency identity contains a double quote. -/
def mC9ex : Modules :=
  [("N", ⟨"N", "own/n", false, "", "own", 0, [("a\"b", "v\"w")], true⟩)]

def nsC9ex : List String := determineNodesToGraph mC9ex ["N", "a\"b"] false

def cycC9ex : List String := filterOutUnusedNodes mC9ex (detectCycles mC9ex nsC9ex)

/-- A map with one resolved and one unresolved record. -/
def mC10ex : Modules :=
  [("N", ⟨"N", "own/n", false, "", "own", 0, [("U", "v")], true⟩),
   ("U", ⟨"U", "own/u", false, "", "own", 0, [], false⟩)]

def infoC10U : ModuleInfo := ⟨"U", "own/u", false, "", "own", 0, [], false⟩

/- ---------------------------------------------------------------------
   Basic helper lemmas
   --------------------------------------------------------------------- -/

theorem mem_sortStr {x : String} {l : List String} : x ∈ sortStr l ↔ x ∈ l :=
  (List.perm_insertionSort _ l).mem_iff

theorem sortStr_nodup {l : List String} (h : l.Nodup) : (sortStr l).Nodup :=
  ((List.perm_insertionSort _ l).nodup_iff).mpr h

theorem mem_of_mlookup {m : Modules} {k : String} {i : ModuleInfo}
    (h : mlookup m k = some i) : (k, i) ∈ m := by
  induction m with
  | nil => simp [mlookup, List.lookup] at h
  | cons p t ih =>
    rw [mlookup, List.lookup] at h
    by_cases hk : k == p.1
    · simp [hk] at h
      have hkk : k = p.1 := beq_iff_eq.mp hk
      exact List.mem_cons.mpr (Or.inl (Prod.ext_iff.mpr ⟨hkk, h.symm⟩))
    · simp [hk] at h
      exact List.mem_cons.mpr (Or.inr (ih h))

theorem mlookup_eq_of_mem {m : Modules} (hk : (m.map Prod.fst).Nodup)
    {k : String} {i : ModuleInfo} (h : (k, i) ∈ m) : mlookup m k = some i := by
  induction m with
  | nil => simp at h
  | cons p t ih =>
    rw [List.map_cons, List.nodup_cons] at hk
    rcases List.mem_cons.mp h with h1 | h1
    · rw [← h1]
      simp [mlookup, List.lookup]
    · have hne : (k == p.1) = false := by
        refine beq_eq_false_iff_ne.mpr ?_
        intro he
        have hmem : k ∈ t.map Prod.fst := by
          have := List.mem_map_of_mem Prod.fst h1
          simpa using this
        rw [he] at hmem
        exact hk.1 hmem
      rw [mlookup, List.lookup, hne]
      exact ih hk.2 h1

/-- Under unique keys, two records for the same key coincide. -/
theorem entry_unique {m : Modules} (hk : (m.map Prod.fst).Nodup)
    {k : String} {i i' : ModuleInfo} (h : (k, i) ∈ m)
    (h' : mlookup m k = some i') : i = i' := by
  have := mlookup_eq_of_mem hk h
  rw [this] at h'
  exact Option.some_injective _ h'

/- ---------------------------------------------------------------------
   Escaping lemmas
   --------------------------------------------------------------------- -/

/-- escChars never produces a leading bare quote. -/
theorem escChars_head_ne_quote (t : List Char) :
    escChars t = [] ∨ ∃ c rest, escChars t = c :: rest ∧ c ≠ '"' := by
  cases t with
  | nil => left; rfl
  | cons c rest =>
    right
    by_cases hc : c = '"'
    · subst hc
      exact ⟨'\\', '"' :: escChars rest, by rw [escChars, if_pos rfl], by decide⟩
    · exact ⟨c, escChars rest, by rw [escChars, if_neg hc], hc⟩

theorem qc_cons_bs_quote (l : List Char) : qc ('\\' :: '"' :: l) = qc l := rfl

theorem qc_cons_other (c : Char) (l : List Char) (hc : c ≠ '"') (hb : c ≠ '\\') :
    qc (c :: l) = qc l := by
  rw [qc.eq_def]
  simp [hc, hb]

theorem qc_cons_bs_other (c' : Char) (l : List Char) (h : c' ≠ '"') :
    qc ('\\' :: c' :: l) = qc (c' :: l) := by
  rw [qc.eq_def]
  simp [h]

/-- The escaping function yields quote-clean character lists. -/
theorem qc_escChars (l : List Char) : qc (escChars l) = true := by
  induction l with
  | nil => rfl
  | cons c t ih =>
    by_cases hc : c = '"'
    · subst hc
      rw [escChars, if_pos rfl, qc_cons_bs_quote]
      exact ih
    · rw [escChars, if_neg hc]
      by_cases hb : c = '\\'
      · subst hb
        rcases escChars_head_ne_quote t with h | ⟨c', rest, h, hne⟩
        · rw [h]; rfl
        · rw [h, qc_cons_bs_other c' rest hne, ← h]
          exact ih
      · rw [qc_cons_other c _ hc hb]
        exact ih

theorem qc_escQ (s : String) : qc (escQ s).data = true := qc_escChars s.data

/- ---------------------------------------------------------------------
   Refinement lemmas and claim C8
   --------------------------------------------------------------------- -/

theorem refineGo_spec (m : Modules) :
    ∀ (fuel : Nat) (cyc : List String), cyc.length ≤ fuel →
    (refineGo m fuel cyc).1 ⊆ cyc ∧
    filterStep m (refineGo m fuel cyc).1 = (refineGo m fuel cyc).1 ∧
    (refineGo m fuel cyc).2 ≤ cyc.length := by
  intro fuel
  induction fuel with
  | zero =>
    intro cyc hlen
    have hnil : cyc = [] := List.length_eq_zero.mp (Nat.le_zero.mp hlen)
    subst hnil
    simp [refineGo, filterStep]
  | succ n ih =>
    intro cyc hlen
    rw [refineGo]
    by_cases he : cyc.isEmpty
    · rw [if_pos he]
      have hnil : cyc = [] := by
        cases cyc with
        | nil => rfl
        | cons a t => simp [List.isEmpty] at he
      subst hnil
      simp [filterStep]
    · rw [if_neg he]
      by_cases hl : (filterStep m cyc).length = cyc.length
      · rw [if_pos hl]
        refine ⟨fun x hx => hx, ?_, by simp⟩
        exact List.Sublist.eq_of_length (List.filter_sublist _) hl
      · rw [if_neg hl]
        have hlt : (filterStep m cyc).length < cyc.length :=
          lt_of_le_of_ne (List.length_filter_le _ _) hl
        have hrec := ih (filterStep m cyc) (by omega)
        refine ⟨?_, hrec.2.1, ?_⟩
        · intro x hx
          have hx2 : x ∈ filterStep m cyc := hrec.1 hx
          exact (List.mem_filter.mp hx2).1
        · have := hrec.2.2
          simp only []
          omega

/-- C8: the iterative cycle-set refinement only shrinks the candidate set,
reaches a fixed point of the one-round filter, and performs at most
|candidates| shrinking iterations. -/
theorem C8_refinement_shrinks_to_fixpoint (m : Modules) (cyc : List String) :
    filterOutUnusedNodes m cyc ⊆ cyc ∧
    filterStep m (filterOutUnusedNodes m cyc) = filterOutUnusedNodes m cyc ∧
    refineRounds m cyc ≤ cyc.length :=
  refineGo_spec m cyc.length cyc le_rfl

/- ---------------------------------------------------------------------
   Claim C10: unresolved records are never graph nodes
   --------------------------------------------------------------------- -/

theorem foldl_pass3_not_mem (fdnf : List String) (k : String) :
    ∀ (l : List (String × ModuleInfo)) (acc : List String × List String),
    (∀ p ∈ l, p.1 = k → p.2.fetched = false) → k ∉ acc.1 →
    k ∉ (l.foldl (pass3Step fdnf) acc).1 := by
  intro l
  induction l with
  | nil =>
    intro acc _ hacc
    simpa using hacc
  | cons p t ih =>
    intro acc hl hacc
    rw [List.foldl_cons]
    refine ih _ (fun q hq hqk => hl q (List.mem_cons_of_mem _ hq) hqk) ?_
    rw [pass3Step]
    split
    · rename_i hcond
      intro hk
      rcases List.mem_append.mp hk with h1 | h1
      · exact hacc h1
      · have hpk : p.1 = k := by
          have := h1
          simp at this
          exact this.symm
        have hf := hl p (List.mem_cons_self _ _) hpk
        rw [hf] at hcond
        simp at hcond
    · exact hacc

/-- C10: a record whose Fetched flag is false never contributes its identity
to the node set computed by determineNodesToGraph: the internal passes skip
it, and pass 4 skips it because it is present in the record map. -/
theorem C10_unfetched_never_in_node_set (m : Modules) (allPaths : List String)
    (noExt : Bool) (k : String) (info : ModuleInfo)
    (hk : (m.map Prod.fst).Nodup) (hlk : mlookup m k = some info)
    (hf : info.fetched = false) :
    k ∉ determineNodesToGraph m allPaths noExt := by
  have hsame : ∀ p ∈ m, p.1 = k → p.2.fetched = false := by
    intro p hp hpk
    have hm : (k, p.2) ∈ m := by
      rw [← hpk]
      simpa using hp
    have := entry_unique hk hm hlk
    rw [this, hf]
  rw [determineNodesToGraph]
  intro hmem
  rcases List.mem_append.mp hmem with h1 | h1
  · rw [pass3] at h1
    refine foldl_pass3_not_mem _ k m _ hsame ?_ h1
    show k ∉ pass1Nodes m
    rw [pass1Nodes]
    intro hk1
    rcases List.mem_map.mp hk1 with ⟨p, hp, hpk⟩
    have hpf := (List.mem_filter.mp hp).2
    have := hsame p (List.mem_filter.mp hp).1 hpk
    rw [this] at hpf
    simp at hpf
  · by_cases hne : noExt
    · simp [hne] at h1
    · rw [if_neg hne] at h1
      have hcond := (List.mem_filter.mp h1).2
      rw [hlk] at hcond
      simp at hcond

/-- Witness for C10 at a concrete input. -/
theorem C10_witness :
    mlookup mC10ex "U" = some infoC10U ∧ infoC10U.fetched = false ∧
    "U" ∉ determineNodesToGraph mC10ex ["N", "U"] false :=
  ⟨by decide, by decide,
   C10_unfetched_never_in_node_set mC10ex ["N", "U"] false "U" infoC10U
     (by decide) (by decide) (by decide)⟩

/- ---------------------------------------------------------------------
   Claim C6: the two-node mutual-dependency scenario
   --------------------------------------------------------------------- -/

/-- C6: for the input of exactly two primary records A and B depending on
each other, the leveled output has exactly one level, its label carries the
cycle marker, and its sole entry is the combined rendering A and B. -/
theorem C6_two_node_cycle_one_level :
    (topoLevels mC6ex nsC6ex).levels = [(0, " (Cycles)", ["A", "B"])] ∧
    topoLines mC6ex nsC6ex =
      ["Topological Sort Levels (Leaves First):",
       "Level 0 (Cycles):",
       "  - A <-> B"] := by
  constructor
  · decide
  · decide

/- ---------------------------------------------------------------------
   Claim C3: map iteration order changes the rendered output
   --------------------------------------------------------------------- -/

/-- C3 evaluation: the same record map presented in two iteration orders
(the two lists are permutations of each other with identical entries) leads
to different node sets, a different diagram text, and a different leveled
text, because pass 3 of determineNodesToGraph reads the referenced set
while growing it during an unsorted map iteration. -/
theorem C3_map_iteration_order_changes_output :
    mOrd1.Perm mOrd2 ∧
    "F2" ∈ determineNodesToGraph mOrd1 allOrd true ∧
    "F2" ∉ determineNodesToGraph mOrd2 allOrd true ∧
    generateDotLines mOrd1 (determineNodesToGraph mOrd1 allOrd true) true false ≠
      generateDotLines mOrd2 (determineNodesToGraph mOrd2 allOrd true) true false ∧
    topoLines mOrd1 (determineNodesToGraph mOrd1 allOrd true) ≠
      topoLines mOrd2 (determineNodesToGraph mOrd2 allOrd true) := by
  refine ⟨by decide, by decide, by decide, by decide, by decide⟩

/- ---------------------------------------------------------------------
   Claim C2: referenced-only forks under exclude-external
   --------------------------------------------------------------------- -/

/-- Counterexample to C2 as stated: F is a secondary (fork) record whose
only inclusion reason is that the primary N references it (it depends on
nothing), exclude-external is true, and yet F appears both among the
diagram node declarations and in the leveled-text listing. -/
theorem C2_counterexample :
    (mlookup mC2ex "F").map ModuleInfo.isFork = some true ∧
    "F" ∈ nsC2ex ∧
    "F" ∈ (dotNodeDecls mC2ex nsC2ex cycC2ex true).map DotNode.id ∧
    "  - o/f (fork of F)" ∈ topoLines mC2ex nsC2ex := by
  refine ⟨by decide, by decide, by decide, by decide⟩

/-- A node path backed by a record always yields a node declaration. -/
theorem dotNodeData_some_of_found (m : Modules) (cyc : List String)
    (noExt : Bool) (k : String) (info : ModuleInfo)
    (hlk : mlookup m k = some info) :
    ∃ n, dotNodeData m cyc noExt k = some n ∧ n.id = k := by
  rw [dotNodeData, hlk]
  by_cases hf : info.isFork
  · simp [hf]
  · simp [hf]

/-- C2 amended: with exclude-external true, a secondary record included only
because it is referenced is NOT dropped — every member of the node set that
is backed by a record (fork or not) still gets a diagram node declaration;
only nodes with no backing record are skipped. -/
theorem C2_amended_backed_nodes_kept (m : Modules) (ns cyc : List String)
    (noExt : Bool) (k : String) (info : ModuleInfo)
    (hns : k ∈ ns) (hlk : mlookup m k = some info) :
    k ∈ (dotNodeDecls m ns cyc noExt).map DotNode.id := by
  rcases dotNodeData_some_of_found m cyc noExt k info hlk with ⟨n, hn, hid⟩
  exact List.mem_map.mpr
    ⟨n, List.mem_filterMap.mpr ⟨k, mem_sortStr.mpr hns, hn⟩, hid⟩

/-- Witness for the amended C2 at the concrete input of the counterexample. -/
theorem C2_amended_witness :
    "F" ∈ (dotNodeDecls mC2ex nsC2ex cycC2ex true).map DotNode.id :=
  C2_amended_backed_nodes_kept mC2ex nsC2ex cycC2ex true "F"
    ⟨"F", "o/f", true, "F", "own", 0, [], true⟩ (by decide) (by decide)

/- ---------------------------------------------------------------------
   Claim C9: escaping of emitted strings
   --------------------------------------------------------------------- -/

/-- Counterexample to C9 as stated: node identifiers are interpolated into
the emitted node declarations verbatim, so an identifier containing a
double quote is emitted with that quote unescaped. -/
theorem C9_counterexample :
    ¬ ∀ n ∈ dotNodeDecls mC9ex nsC9ex cycC9ex false, qc n.id.data = true := by
  decide

theorem dotNodeData_labelVal_escaped {m : Modules} {cyc : List String}
    {noExt : Bool} {a : String} {n : DotNode}
    (h : dotNodeData m cyc noExt a = some n) : ∃ s, n.labelVal = escQ s := by
  rw [dotNodeData] at h
  rcases hla : mlookup m a with _ | info <;> rw [hla] at h
  · by_cases hne : noExt
    · simp [hne] at h
    · simp [hne] at h
      exact ⟨a, by rw [← h]⟩
  · by_cases hf : info.isFork
    · simp [hf] at h
      exact ⟨_, by rw [← h]⟩
    · simp [hf] at h
      exact ⟨a, by rw [← h]⟩

theorem dotEdge_labelVal_escaped {m : Modules} {ns cyc : List String}
    {e : DotEdge} (h : e ∈ dotEdgeDecls m ns cyc) :
    ∃ s, e.labelVal = escQ s := by
  rw [dotEdgeDecls] at h
  rcases List.mem_flatten.mp h with ⟨es, hes, he⟩
  rcases List.mem_map.mp hes with ⟨src, _, hsrc⟩
  rw [← hsrc] at he
  rw [dotEdgesFor] at he
  rcases hli : mlookup m src with _ | info <;> rw [hli] at he
  · simp at he
  · rcases List.mem_filterMap.mp he with ⟨dep, _, hdep⟩
    by_cases hc : ns.contains dep
    · rw [if_pos hc] at hdep
      exact ⟨_, by rw [← Option.some_injective _ hdep]⟩
    · rw [if_neg hc] at hdep
      simp at hdep

/-- C9 amended: in the diagram output every node label value and every edge
version label is emitted with each double quote escaped (by the escaping
pass); node identifiers, by contrast, are emitted verbatim. -/
theorem C9_amended_labels_versions_escaped (m : Modules) (ns cyc : List String)
    (noExt : Bool) :
    (∀ n ∈ dotNodeDecls m ns cyc noExt, qc n.labelVal.data = true) ∧
    (∀ e ∈ dotEdgeDecls m ns cyc, qc e.labelVal.data = true) := by
  constructor
  · intro n hn
    rcases List.mem_filterMap.mp (by simpa [dotNodeDecls] using hn) with ⟨a, _, ha⟩
    rcases dotNodeData_labelVal_escaped ha with ⟨s, hs⟩
    rw [hs]
    exact qc_escQ s
  · intro e he
    rcases dotEdge_labelVal_escaped he with ⟨s, hs⟩
    rw [hs]
    exact qc_escQ s

/- ---------------------------------------------------------------------
   Proof-level view of the restricted dependency graph
   --------------------------------------------------------------------- -/

/-- The dependencies of `u` that lie inside the node set (the edges of the
restricted graph, as counted by inDeg and traversed by revAdj). -/
def depsNS (m : Modules) (ns : List String) (u : String) : List String :=
  if ns.contains u then
    match mlookup m u with
    | some info => (depKeys info).filter (fun d => ns.contains d)
    | none => []
  else []

/-- Edge of the restricted dependency graph: `u` depends on `d`. -/
def E (m : Modules) (ns : List String) (u d : String) : Prop :=
  d ∈ depsNS m ns u

theorem contains_iff {l : List String} {x : String} :
    l.contains x = true ↔ x ∈ l := by
  simp

theorem inDeg_eq_depsNS (m : Modules) (ns : List String) (u : String) :
    inDeg m ns u = (depsNS m ns u).length := by
  rw [inDeg, depsNS]
  by_cases h : ns.contains u
  · rw [if_pos h, if_pos h]
    cases mlookup m u <;> rfl
  · rw [if_neg h, if_neg h]
    rfl

theorem depsNS_mem_ns {m : Modules} {ns : List String} {u d : String}
    (h : d ∈ depsNS m ns u) : u ∈ ns ∧ d ∈ ns := by
  rw [depsNS] at h
  by_cases hu : ns.contains u
  · rw [if_pos hu] at h
    rcases hl : mlookup m u with _ | info <;> rw [hl] at h
    · simp at h
    · refine ⟨contains_iff.mp hu, ?_⟩
      have := (List.mem_filter.mp h).2
      exact contains_iff.mp (by simpa using this)
  · rw [if_neg hu] at h
    simp at h

theorem depsNS_nodup {m : Modules} {ns : List String}
    (hdeps : ∀ p ∈ m, (depKeys p.2).Nodup) (u : String) :
    (depsNS m ns u).Nodup := by
  rw [depsNS]
  by_cases hu : ns.contains u
  · rw [if_pos hu]
    rcases hl : mlookup m u with _ | info
    · exact List.nodup_nil
    · exact (hdeps (u, info) (mem_of_mlookup hl)).filter _
  · rw [if_neg hu]
    exact List.nodup_nil

theorem mem_revAdj {m : Modules} {ns : List String}
    (hkeys : (m.map Prod.fst).Nodup) {x d : String} :
    x ∈ revAdj m ns d ↔ d ∈ depsNS m ns x := by
  rw [revAdj]
  constructor
  · intro hx
    by_cases hd : ns.contains d
    · rw [if_pos hd] at hx
      rcases List.mem_map.mp hx with ⟨p, hp, hpx⟩
      rcases List.mem_filter.mp hp with ⟨hpm, hcond⟩
      have hx' : ns.contains p.1 = true ∧ (depKeys p.2).contains d = true := by
        simpa using hcond
      have hlp : mlookup m p.1 = some p.2 := mlookup_eq_of_mem hkeys hpm
      rw [depsNS, ← hpx, if_pos hx'.1, hlp]
      exact List.mem_filter.mpr ⟨contains_iff.mp hx'.2, by simpa using hd⟩
    · rw [if_neg hd] at hx
      simp at hx
  · intro hd
    have hns := depsNS_mem_ns hd
    rw [depsNS] at hd
    have hx : ns.contains x = true := by simpa using hns.1
    rw [if_pos hx] at hd
    rcases hl : mlookup m x with _ | info <;> rw [hl] at hd
    · simp at hd
    · rw [if_pos (by simpa using hns.2)]
      refine List.mem_map.mpr ⟨(x, info), ?_, rfl⟩
      refine List.mem_filter.mpr ⟨mem_of_mlookup hl, ?_⟩
      have hdk : d ∈ depKeys info := (List.mem_filter.mp hd).1
      simp
      exact ⟨contains_iff.mp hx, hdk⟩

theorem revAdj_nodup {m : Modules} {ns : List String}
    (hkeys : (m.map Prod.fst).Nodup) (d : String) :
    (revAdj m ns d).Nodup := by
  rw [revAdj]
  by_cases hd : ns.contains d
  · rw [if_pos hd]
    exact hkeys.sublist (List.Sublist.map Prod.fst (List.filter_sublist m))
  · rw [if_neg hd]
    exact List.nodup_nil

/-- Filter against an exclusion base not mentioning any element of the list
is unchanged by adjoining that element. -/
theorem filter_notmem_snoc_eq {l : List String} {P : List String} {u : String}
    (hu : u ∉ l) :
    l.filter (fun d => decide (d ∉ P ++ [u])) =
    l.filter (fun d => decide (d ∉ P)) := by
  refine List.filter_congr ?_
  intro d hd
  have hdu : d ≠ u := fun he => hu (he ▸ hd)
  simp [hdu]

/-- Count bookkeeping: removing one present element from the exclusion base
decreases the surviving-filter length by one. -/
theorem filter_notmem_snoc_len {l : List String} (hnd : l.Nodup)
    {P : List String} {u : String} (hul : u ∈ l) (hup : u ∉ P) :
    ((l.filter (fun d => decide (d ∉ P ++ [u]))).length) + 1 =
    (l.filter (fun d => decide (d ∉ P))).length := by
  induction l with
  | nil => simp at hul
  | cons a t ih =>
    rw [List.nodup_cons] at hnd
    rcases List.mem_cons.mp hul with h1 | h1
    · subst h1
      have heq : t.filter (fun d => decide (d ∉ P ++ [u])) =
          t.filter (fun d => decide (d ∉ P)) :=
        filter_notmem_snoc_eq hnd.1
      have h2 : (decide (u ∉ P ++ [u])) = false := by simp
      have h3 : (decide (u ∉ P)) = true := by simpa using hup
      rw [List.filter_cons, List.filter_cons, h2, h3,
          if_neg (by simp), if_pos rfl, heq]
      simp
    · have hau : a ≠ u := fun he => hnd.1 (he ▸ h1)
      by_cases haP : a ∈ P
      · have h2 : (decide (a ∉ P ++ [u])) = false := by simp [haP]
        have h3 : (decide (a ∉ P)) = false := by simpa using haP
        rw [List.filter_cons, List.filter_cons, h2, h3]
        simpa using ih hnd.2 h1
      · have h2 : (decide (a ∉ P ++ [u])) = true := by simp [haP, hau]
        have h3 : (decide (a ∉ P)) = true := by simpa using haP
        rw [List.filter_cons, List.filter_cons, h2, h3]
        simp only [if_true]
        have := ih hnd.2 h1
        simp only [List.length_cons]
        omega

/- ---------------------------------------------------------------------
   Processing order: every processed node's in-set dependencies were
   processed strictly earlier
   --------------------------------------------------------------------- -/

inductive ProcOrd (m : Modules) (ns : List String) : List String → Prop
  | nil : ProcOrd m ns []
  | snoc (l : List String) (u : String) :
      ProcOrd m ns l → (∀ d ∈ depsNS m ns u, d ∈ l) → ProcOrd m ns (l ++ [u])

theorem ProcOrd.closure {m : Modules} {ns : List String} {l : List String}
    (h : ProcOrd m ns l) : ∀ u ∈ l, ∀ d ∈ depsNS m ns u, d ∈ l := by
  induction h with
  | nil => intro u hu; simp at hu
  | snoc l₀ u₀ _ hdeps ih =>
    intro u hu d hd
    rcases List.mem_append.mp hu with h1 | h1
    · exact List.mem_append.mpr (Or.inl (ih u h1 d hd))
    · have : u = u₀ := by simpa using h1
      subst this
      exact List.mem_append.mpr (Or.inl (hdeps d hd))

theorem indexOf_append_self {u : String} {l : List String} (h : u ∉ l) :
    (l ++ [u]).indexOf u = l.length := by
  rw [List.indexOf_append_of_not_mem h]
  simp

/-- Ranks along the processing order: an in-set dependency of a processed
node is processed and has a strictly smaller index. -/
theorem ProcOrd.rank {m : Modules} {ns : List String} {l : List String}
    (h : ProcOrd m ns l) (hnd : l.Nodup) :
    ∀ u ∈ l, ∀ d ∈ depsNS m ns u, d ∈ l ∧ l.indexOf d < l.indexOf u := by
  induction h with
  | nil => intro u hu; simp at hu
  | snoc l₀ u₀ h₀ hdeps ih =>
    have hnd₀ : l₀.Nodup := (List.nodup_append.mp hnd).1
    have hu₀ : u₀ ∉ l₀ := by
      intro hmem
      rcases List.nodup_append.mp hnd with ⟨_, _, hdisj⟩
      exact hdisj hmem (by simp)
    intro u hu d hd
    rcases List.mem_append.mp hu with h1 | h1
    · rcases ih hnd₀ u h1 d hd with ⟨hdl, hlt⟩
      refine ⟨List.mem_append.mpr (Or.inl hdl), ?_⟩
      rw [List.indexOf_append_of_mem hdl, List.indexOf_append_of_mem h1]
      exact hlt
    · have : u = u₀ := by simpa using h1
      subst this
      have hdl : d ∈ l₀ := hdeps d hd
      refine ⟨List.mem_append.mpr (Or.inl hdl), ?_⟩
      rw [List.indexOf_append_of_mem hdl, indexOf_append_self hu₀]
      exact List.indexOf_lt_length.mpr hdl

/-- No node participating in a cycle of the restricted graph is ever
processed. -/
theorem ProcOrd.no_cycle {m : Modules} {ns : List String} {l : List String}
    (h : ProcOrd m ns l) (hnd : l.Nodup) :
    ∀ c ∈ l, ¬ Relation.TransGen (E m ns) c c := by
  have step : ∀ a b, Relation.TransGen (E m ns) a b → a ∈ l →
      b ∈ l ∧ l.indexOf b < l.indexOf a := by
    intro a b htg
    induction htg with
    | single hE => intro ha; exact h.rank hnd a ha _ hE
    | tail _ hE ih =>
      intro ha
      rcases ih ha with ⟨hb, hlt⟩
      rcases h.rank hnd _ hb _ hE with ⟨hc, hlt'⟩
      exact ⟨hc, lt_trans hlt' hlt⟩
  intro c hc htg
  have := (step c c htg hc).2
  omega

/- ---------------------------------------------------------------------
   Pigeonhole: in a finite set where every node has a successor inside the
   set, every node reaches a cycle
   --------------------------------------------------------------------- -/

section Chains

variable {α : Type} {R : α → α → Prop}

theorem chain_reach_aux :
    ∀ (l : List α) (v : α), List.Chain' R (v :: l) →
    ∀ x ∈ v :: l, Relation.ReflTransGen R v x := by
  intro l
  induction l with
  | nil =>
    intro v _ x hx
    have : x = v := by simpa using hx
    rw [this]
  | cons z l' ih =>
    intro v hch x hx
    have hcz := List.chain'_cons.mp hch
    rcases List.mem_cons.mp hx with h1 | h1
    · rw [h1]
    · exact Relation.ReflTransGen.head hcz.1 (ih z hcz.2 x h1)

theorem chain_transGen_aux :
    ∀ (l : List α) (x : α), List.Chain' R (x :: l) →
    ∀ y ∈ l, Relation.TransGen R x y := by
  intro l
  induction l with
  | nil =>
    intro x _ y hy
    simp at hy
  | cons z l' ih =>
    intro x hch y hy
    have hcz := List.chain'_cons.mp hch
    rcases List.mem_cons.mp hy with h1 | h1
    · exact Relation.TransGen.single (h1 ▸ hcz.1)
    · exact Relation.TransGen.head hcz.1 (ih z hcz.2 y h1)

theorem exists_dup_split [DecidableEq α] :
    ∀ {l : List α}, ¬ l.Nodup → ∃ s a t r, l = s ++ a :: t ++ a :: r := by
  intro l
  induction l with
  | nil => intro h; exact absurd List.nodup_nil h
  | cons x xs ih =>
    intro h
    by_cases hx : x ∈ xs
    · rcases List.append_of_mem hx with ⟨t, r, htr⟩
      exact ⟨[], x, t, r, by rw [htr]; rfl⟩
    · have hxs : ¬ xs.Nodup := fun hnd => h (List.nodup_cons.mpr ⟨hx, hnd⟩)
      rcases ih hxs with ⟨s, a, t, r, hl⟩
      exact ⟨x :: s, a, t, r, by rw [hl]; rfl⟩

/-- Grow a chain inside U to any length, one successor at a time. -/
theorem chain_build [DecidableEq α] {U : List α}
    (hsucc : ∀ v ∈ U, ∃ w, w ∈ U ∧ R v w) :
    ∀ (n : Nat), ∀ v ∈ U, ∃ rest : List α, rest.length = n ∧
    List.Chain' R (v :: rest) ∧ ∀ x ∈ v :: rest, x ∈ U := by
  intro n
  induction n with
  | zero =>
    intro v hv
    exact ⟨[], rfl, List.chain'_singleton v, by simpa using hv⟩
  | succ k ih =>
    intro v hv
    rcases ih v hv with ⟨rest, hlen, hchain, hU⟩
    have hyU : (v :: rest).getLast (List.cons_ne_nil v rest) ∈ U :=
      hU _ (List.getLast_mem _)
    rcases hsucc _ hyU with ⟨w, hwU, hRyw⟩
    refine ⟨rest ++ [w], by simp [hlen], ?_, ?_⟩
    · have happ : List.Chain' R ((v :: rest) ++ [w]) := by
        refine hchain.append (List.chain'_singleton w) ?_
        intro x hx y hy
        rw [List.getLast?_eq_getLast_of_ne_nil (List.cons_ne_nil v rest)] at hx
        have hx' : x = (v :: rest).getLast (List.cons_ne_nil v rest) :=
          (by simpa using hx : _ = x).symm
        have hy' : y = w := (by simpa using hy : w = y).symm
        rw [hx', hy']
        exact hRyw
      simpa using happ
    · intro x hx
      rcases List.mem_cons.mp hx with h1 | h1
      · exact hU x (h1 ▸ List.mem_cons_self v rest)
      · rcases List.mem_append.mp h1 with h2 | h2
        · exact hU x (List.mem_cons_of_mem v h2)
        · have : x = w := by simpa using h2
          rw [this]
          exact hwU

/-- Every member of a finite set in which each node has a successor inside
the set reaches a cycle (pigeonhole along a long enough chain). -/
theorem reaches_cycle_of_succ [DecidableEq α] {U : List α}
    (hsucc : ∀ v ∈ U, ∃ w, w ∈ U ∧ R v w) :
    ∀ v ∈ U, ∃ c, Relation.ReflTransGen R v c ∧ Relation.TransGen R c c := by
  intro v hv
  rcases chain_build hsucc U.length v hv with ⟨rest, hlen, hchain, hU⟩
  have hnotnd : ¬ (v :: rest).Nodup := by
    intro hnd
    have h1 : (v :: rest).length = (v :: rest).toFinset.card :=
      (List.toFinset_card_of_nodup hnd).symm
    have h2 : (v :: rest).toFinset.card ≤ U.toFinset.card :=
      Finset.card_le_card (fun x hx =>
        List.mem_toFinset.mpr (hU x (List.mem_toFinset.mp hx)))
    have h3 : U.toFinset.card ≤ U.length := List.toFinset_card_le U
    have h4 : (v :: rest).length = U.length + 1 := by simp [hlen]
    omega
  rcases exists_dup_split hnotnd with ⟨s, a, t, r, hsplit⟩
  have hmem : a ∈ v :: rest := by
    rw [hsplit]
    exact List.mem_append.mpr (Or.inr (List.mem_cons_self a _))
  refine ⟨a, chain_reach_aux rest v hchain a hmem, ?_⟩
  have hchain2 : List.Chain' R (a :: (t ++ a :: r)) := by
    have hh : List.Chain' R (s ++ (a :: (t ++ a :: r))) := by
      have hre : v :: rest = s ++ (a :: (t ++ a :: r)) := by rw [hsplit]; simp
      rw [← hre]
      exact hchain
    exact (List.chain'_append.mp hh).2.1
  exact chain_transGen_aux _ a hchain2 a
    (List.mem_append.mpr (Or.inr (List.mem_cons_self a r)))

end Chains

/- ---------------------------------------------------------------------
   Invariant of the detection Kahn loop
   --------------------------------------------------------------------- -/

theorem nodup_snoc {l : List String} {u : String} (hnd : l.Nodup) (hu : u ∉ l) :
    (l ++ [u]).Nodup := by
  rw [List.nodup_append]
  refine ⟨hnd, List.nodup_singleton u, ?_⟩
  intro x hx hxu
  have : x = u := by simpa using hxu
  exact hu (this ▸ hx)

theorem foldl_decStep_spec :
    ∀ (nbrs : List String) (deg : String → Int) (acc : List String),
    nbrs.Nodup →
    (nbrs.foldl decStep (deg, acc)).1 =
      (fun x => if x ∈ nbrs then deg x - 1 else deg x) ∧
    (nbrs.foldl decStep (deg, acc)).2 =
      acc ++ nbrs.filter (fun v => deg v == 1) := by
  intro nbrs
  induction nbrs with
  | nil =>
    intro deg acc _
    constructor
    · funext x; simp
    · simp
  | cons v t ih =>
    intro deg acc hnd
    rw [List.nodup_cons] at hnd
    rw [List.foldl_cons]
    have hstep : decStep (deg, acc) v =
        (fun x => if x == v then deg v - 1 else deg x,
         if deg v - 1 == 0 then acc ++ [v] else acc) := rfl
    rw [hstep]
    rcases ih (fun x => if x == v then deg v - 1 else deg x)
      (if deg v - 1 == 0 then acc ++ [v] else acc) hnd.2 with ⟨h1, h2⟩
    constructor
    · rw [h1]
      funext x
      by_cases hxt : x ∈ t
      · have hxv : (x == v) = false :=
          beq_eq_false_iff_ne.mpr (fun he => hnd.1 (he ▸ hxt))
        simp [hxt, hxv, List.mem_cons.mpr (Or.inr hxt)]
      · by_cases hxv : x = v
        · subst hxv
          simp [hxt]
        · have hxv' : (x == v) = false := beq_eq_false_iff_ne.mpr hxv
          simp [hxt, hxv, hxv']
    · rw [h2]
      have hfeq : t.filter (fun x => (if x == v then deg v - 1 else deg x) == 1) =
          t.filter (fun x => deg x == 1) := by
        refine List.filter_congr ?_
        intro x hx
        have hxv : (x == v) = false :=
          beq_eq_false_iff_ne.mpr (fun he => hnd.1 (he ▸ hx))
        rw [hxv]
        simp
      rw [hfeq, List.filter_cons]
      by_cases hdv : deg v = 1
      · have ht : (deg v == 1) = true := by simpa using hdv
        have ht2 : (deg v - 1 == 0) = true := by
          have : deg v - 1 = 0 := by omega
          simpa using this
        rw [ht, ht2]
        simp
      · have hf : (deg v == 1) = false := by simpa using hdv
        have hf2 : (deg v - 1 == 0) = false := by
          have : ¬ (deg v - 1 = 0) := by omega
          simpa using this
        rw [hf, hf2]
        simp

structure DetInv (m : Modules) (ns : List String) (st : DetState) : Prop where
  procNodup : st.processed.Nodup
  procSub : ∀ u ∈ st.processed, u ∈ ns
  qNodup : st.queue.Nodup
  qSub : ∀ u ∈ st.queue, u ∈ ns
  qDisj : ∀ u ∈ st.queue, u ∉ st.processed
  degEq : ∀ v ∈ ns, st.deg v =
    (((depsNS m ns v).filter (fun d => decide (d ∉ st.processed))).length : Int)
  qZero : ∀ v ∈ st.queue, st.deg v = 0
  zeroIn : ∀ v ∈ ns, st.deg v = 0 → v ∈ st.processed ∨ v ∈ st.queue
  pOrd : ProcOrd m ns st.processed

theorem degzero_deps_processed {m : Modules} {ns : List String} {st : DetState}
    (inv : DetInv m ns st) {v : String} (hv : v ∈ ns) (h0 : st.deg v = 0) :
    ∀ d ∈ depsNS m ns v, d ∈ st.processed := by
  intro d hd
  by_contra hdn
  have hdeq := inv.degEq v hv
  rw [h0] at hdeq
  have hlen : ((depsNS m ns v).filter (fun d => decide (d ∉ st.processed))).length = 0 := by
    exact_mod_cast hdeq.symm
  have hnil := List.length_eq_zero.mp hlen
  have hdf : d ∈ (depsNS m ns v).filter (fun d => decide (d ∉ st.processed)) :=
    List.mem_filter.mpr ⟨hd, by simpa using hdn⟩
  rw [hnil] at hdf
  simp at hdf

theorem processed_cover {ns : List String} {m : Modules} {st : DetState}
    (hns : ns.Nodup) (inv : DetInv m ns st)
    (hlen : ns.length ≤ st.processed.length) : ∀ x ∈ ns, x ∈ st.processed := by
  intro x hx
  have hsub : st.processed.toFinset ⊆ ns.toFinset := fun y hy =>
    List.mem_toFinset.mpr (inv.procSub y (List.mem_toFinset.mp hy))
  have hcard : ns.toFinset.card ≤ st.processed.toFinset.card := by
    rw [List.toFinset_card_of_nodup inv.procNodup,
        List.toFinset_card_of_nodup hns]
    exact hlen
  have heq := Finset.eq_of_subset_of_card_le hsub hcard
  have : x ∈ st.processed.toFinset := by
    rw [heq]
    exact List.mem_toFinset.mpr hx
  exact List.mem_toFinset.mp this

theorem detStep_inv {m : Modules} {ns : List String}
    (hkeys : (m.map Prod.fst).Nodup)
    (hdeps : ∀ p ∈ m, (depKeys p.2).Nodup) {st : DetState}
    (inv : DetInv m ns st) {u : String} {rest : List String}
    (hq : st.queue = u :: rest) :
    DetInv m ns
      ⟨sortStr (rest ++ (sortStr (revAdj m ns u)).filter (fun v => st.deg v == 1)),
       fun x => if x ∈ sortStr (revAdj m ns u) then st.deg x - 1 else st.deg x,
       st.processed ++ [u]⟩ := by
  have hnbrsnd : (sortStr (revAdj m ns u)).Nodup :=
    sortStr_nodup (revAdj_nodup hkeys u)
  have hnmem : ∀ x : String, x ∈ sortStr (revAdj m ns u) ↔ u ∈ depsNS m ns x :=
    fun x => by rw [mem_sortStr, mem_revAdj hkeys]
  have huq : u ∈ st.queue := by rw [hq]; exact List.mem_cons_self u rest
  have hu_ns : u ∈ ns := inv.qSub u huq
  have hu_np : u ∉ st.processed := inv.qDisj u huq
  have hu_deg : st.deg u = 0 := inv.qZero u huq
  have hu_deps : ∀ d ∈ depsNS m ns u, d ∈ st.processed :=
    degzero_deps_processed inv hu_ns hu_deg
  have hrest_sub : ∀ x ∈ rest, x ∈ st.queue := by
    intro x hx
    rw [hq]
    exact List.mem_cons_of_mem u hx
  have hnbr_free : ∀ x ∈ sortStr (revAdj m ns u),
      x ∉ st.processed ∧ x ∉ st.queue := by
    intro x hx
    have hxdep : u ∈ depsNS m ns x := (hnmem x).mp hx
    constructor
    · intro hxp
      exact hu_np (inv.pOrd.closure x hxp u hxdep)
    · intro hxq
      exact hu_np
        (degzero_deps_processed inv (inv.qSub x hxq) (inv.qZero x hxq) u hxdep)
  have hqnd := inv.qNodup
  rw [hq, List.nodup_cons] at hqnd
  have hmemq' : ∀ x : String,
      x ∈ sortStr (rest ++ (sortStr (revAdj m ns u)).filter (fun v => st.deg v == 1)) ↔
      x ∈ rest ∨ (x ∈ sortStr (revAdj m ns u) ∧ st.deg x = 1) := by
    intro x
    rw [mem_sortStr, List.mem_append]
    simp [List.mem_filter]
  refine ⟨?_, ?_, ?_, ?_, ?_, ?_, ?_, ?_, ?_⟩
  · exact nodup_snoc inv.procNodup hu_np
  · intro x hx
    rcases List.mem_append.mp hx with h | h
    · exact inv.procSub x h
    · have : x = u := by simpa using h
      exact this ▸ hu_ns
  · refine sortStr_nodup ?_
    rw [List.nodup_append]
    refine ⟨hqnd.2, hnbrsnd.filter _, ?_⟩
    intro x hx hx2
    have hx3 : x ∈ sortStr (revAdj m ns u) := (List.mem_filter.mp hx2).1
    exact (hnbr_free x hx3).2 (hrest_sub x hx)
  · intro x hx
    rcases (hmemq' x).mp hx with h | h
    · exact inv.qSub x (hrest_sub x h)
    · exact (depsNS_mem_ns ((hnmem x).mp h.1)).1
  · intro x hx
    intro hxp
    rcases List.mem_append.mp hxp with hp | hp
    · rcases (hmemq' x).mp hx with h | h
      · exact inv.qDisj x (hrest_sub x h) hp
      · exact (hnbr_free x h.1).1 hp
    · have hxu : x = u := by simpa using hp
      subst hxu
      rcases (hmemq' x).mp hx with h | h
      · exact hqnd.1 h
      · exact (hnbr_free x h.1).2 huq
  · intro v hv
    show (if v ∈ sortStr (revAdj m ns u) then st.deg v - 1 else st.deg v) =
      (((depsNS m ns v).filter
        (fun d => decide (d ∉ st.processed ++ [u]))).length : Int)
    by_cases hvn : v ∈ sortStr (revAdj m ns u)
    · rw [if_pos hvn]
      have hud : u ∈ depsNS m ns v := (hnmem v).mp hvn
      have hcnt := filter_notmem_snoc_len (depsNS_nodup hdeps v)
        hud hu_np
      have hold := inv.degEq v hv
      omega
    · rw [if_neg hvn]
      have hud : u ∉ depsNS m ns v := fun hud => hvn ((hnmem v).mpr hud)
      rw [filter_notmem_snoc_eq hud]
      exact inv.degEq v hv
  · intro v hv
    show (if v ∈ sortStr (revAdj m ns u) then st.deg v - 1 else st.deg v) = 0
    rcases (hmemq' v).mp hv with h | h
    · have hvnb : v ∉ sortStr (revAdj m ns u) := fun hvn =>
        (hnbr_free v hvn).2 (hrest_sub v h)
      rw [if_neg hvnb]
      exact inv.qZero v (hrest_sub v h)
    · rw [if_pos h.1, h.2]
      omega
  · intro v hv h0
    have h0' : (if v ∈ sortStr (revAdj m ns u) then st.deg v - 1 else st.deg v) = 0 := h0
    by_cases hvn : v ∈ sortStr (revAdj m ns u)
    · rw [if_pos hvn] at h0'
      right
      exact (hmemq' v).mpr (Or.inr ⟨hvn, by omega⟩)
    · rw [if_neg hvn] at h0'
      rcases inv.zeroIn v hv h0' with h | h
      · exact Or.inl (List.mem_append.mpr (Or.inl h))
      · rw [hq] at h
        rcases List.mem_cons.mp h with h1 | h1
        · exact Or.inl (List.mem_append.mpr (Or.inr (by simp [h1])))
        · exact Or.inr ((hmemq' v).mpr (Or.inl h1))
  · exact ProcOrd.snoc st.processed u inv.pOrd hu_deps

theorem detRun_nil {radj : String → List String} {fuel : Nat} {st : DetState}
    (h : st.queue = []) : detRun radj (fuel+1) st = st := by
  rw [detRun, h]

theorem detRun_cons {radj : String → List String} {fuel : Nat} {st : DetState}
    {u : String} {rest : List String} (h : st.queue = u :: rest) :
    detRun radj (fuel+1) st =
    detRun radj fuel
      ⟨sortStr (rest ++ (processNeighbors st.deg (sortStr (radj u))).2),
       (processNeighbors st.deg (sortStr (radj u))).1,
       st.processed ++ [u]⟩ := by
  rw [detRun, h]

theorem detRun_spec {m : Modules} {ns : List String}
    (hkeys : (m.map Prod.fst).Nodup)
    (hdeps : ∀ p ∈ m, (depKeys p.2).Nodup) (hns : ns.Nodup) :
    ∀ (fuel : Nat) (st : DetState), DetInv m ns st →
    ns.length ≤ fuel + st.processed.length →
    DetInv m ns (detRun (revAdj m ns) fuel st) ∧
    (detRun (revAdj m ns) fuel st).queue = [] := by
  intro fuel
  induction fuel with
  | zero =>
    intro st inv hle
    rw [detRun]
    refine ⟨inv, ?_⟩
    cases hq : st.queue with
    | nil => rfl
    | cons u rest =>
      exfalso
      have huq : u ∈ st.queue := by rw [hq]; exact List.mem_cons_self u rest
      exact inv.qDisj u huq
        (processed_cover hns inv (by omega) u (inv.qSub u huq))
  | succ k ih =>
    intro st inv hle
    cases hq : st.queue with
    | nil =>
      rw [detRun_nil hq]
      exact ⟨inv, hq⟩
    | cons u rest =>
      rw [detRun_cons hq]
      have hstEq :
          (⟨sortStr (rest ++ (processNeighbors st.deg (sortStr (revAdj m ns u))).2),
            (processNeighbors st.deg (sortStr (revAdj m ns u))).1,
            st.processed ++ [u]⟩ : DetState) =
          ⟨sortStr (rest ++ (sortStr (revAdj m ns u)).filter (fun v => st.deg v == 1)),
           fun x => if x ∈ sortStr (revAdj m ns u) then st.deg x - 1 else st.deg x,
           st.processed ++ [u]⟩ := by
        obtain ⟨h1, h2⟩ := foldl_decStep_spec (sortStr (revAdj m ns u)) st.deg []
          (sortStr_nodup (revAdj_nodup hkeys u))
        rw [processNeighbors, h1, h2]
        simp
      rw [hstEq]
      have inv' := detStep_inv hkeys hdeps inv hq
      refine ih _ inv' ?_
      simp only [List.length_append, List.length_singleton]
      omega

theorem detInit_inv (m : Modules) (ns : List String) (hns : ns.Nodup) :
    DetInv m ns ⟨sortStr (ns.filter (fun v => inDeg m ns v == 0)),
                 fun v => (inDeg m ns v : Int), []⟩ := by
  refine ⟨List.nodup_nil, by simp, ?_, ?_, ?_, ?_, ?_, ?_, ProcOrd.nil⟩
  · exact sortStr_nodup (hns.filter _)
  · intro u hu
    exact (List.mem_filter.mp (mem_sortStr.mp hu)).1
  · intro u _
    simp
  · intro v _
    show ((inDeg m ns v : Int)) =
      (((depsNS m ns v).filter (fun d => decide (d ∉ ([] : List String)))).length : Int)
    have hfe : (depsNS m ns v).filter (fun d => decide (d ∉ ([] : List String))) =
        depsNS m ns v := by
      refine List.filter_eq_self.mpr ?_
      intro d _
      simp
    rw [hfe, inDeg_eq_depsNS]
  · intro v hv
    have hc := (List.mem_filter.mp (mem_sortStr.mp hv)).2
    have h0 : inDeg m ns v = 0 := by simpa using hc
    show ((inDeg m ns v : Int)) = 0
    simp [h0]
  · intro v hv h0
    right
    rw [mem_sortStr]
    refine List.mem_filter.mpr ⟨hv, ?_⟩
    have h0' : ((inDeg m ns v : Int)) = 0 := h0
    have : inDeg m ns v = 0 := by exact_mod_cast h0'
    simp [this]

theorem detectState_spec {m : Modules} {ns : List String}
    (hkeys : (m.map Prod.fst).Nodup)
    (hdeps : ∀ p ∈ m, (depKeys p.2).Nodup) (hns : ns.Nodup) :
    DetInv m ns (detectState m ns) ∧ (detectState m ns).queue = [] := by
  rw [detectState]
  exact detRun_spec hkeys hdeps hns ns.length _ (detInit_inv m ns hns) (by simp)

/-- Full characterization of the cycle-candidate set returned by the
detection pass: exactly the nodes from which a cycle of the restricted
graph is reachable along dependency edges. -/
theorem detectCycles_mem_iff (m : Modules) (ns : List String)
    (hkeys : (m.map Prod.fst).Nodup)
    (hdeps : ∀ p ∈ m, (depKeys p.2).Nodup) (hns : ns.Nodup) (v : String) :
    v ∈ detectCycles m ns ↔
    v ∈ ns ∧ ∃ c, Relation.ReflTransGen (E m ns) v c ∧
      Relation.TransGen (E m ns) c c := by
  obtain ⟨inv, hqnil⟩ := detectState_spec hkeys hdeps hns
  have hproc_zero : ∀ w ∈ ns,
      (w ∈ (detectState m ns).processed ↔ (detectState m ns).deg w = 0) := by
    intro w hw
    constructor
    · intro hwp
      have hdeq := inv.degEq w hw
      have hnil : (depsNS m ns w).filter
          (fun d => decide (d ∉ (detectState m ns).processed)) = [] := by
        refine List.filter_eq_nil_iff.mpr ?_
        intro d hd
        simpa using inv.pOrd.closure w hwp d hd
      rw [hnil] at hdeq
      simpa using hdeq
    · intro h0
      rcases inv.zeroIn w hw h0 with h | h
      · exact h
      · rw [hqnil] at h
        simp at h
  have hcyc_unproc : ∀ c, Relation.TransGen (E m ns) c c →
      c ∉ (detectState m ns).processed :=
    fun c htg hcp => inv.pOrd.no_cycle inv.procNodup c hcp htg
  have hdown : ∀ a b, Relation.ReflTransGen (E m ns) a b →
      a ∈ (detectState m ns).processed → b ∈ (detectState m ns).processed := by
    intro a b hab
    induction hab with
    | refl => exact id
    | tail _ hE ih =>
      intro ha
      exact inv.pOrd.closure _ (ih ha) _ hE
  rw [detectCycles]
  by_cases hcase : (detectState m ns).processed.length < ns.length
  · rw [if_pos hcase]
    constructor
    · intro hvmem
      rcases List.mem_filter.mp hvmem with ⟨hvs, hvd⟩
      have hvns : v ∈ ns := mem_sortStr.mp hvs
      have hvnp : v ∉ (detectState m ns).processed := by
        intro hvp
        have h0 := (hproc_zero v hvns).mp hvp
        rw [h0] at hvd
        simp at hvd
      refine ⟨hvns, ?_⟩
      have hsucc : ∀ w ∈ ns.filter
          (fun x => decide (x ∉ (detectState m ns).processed)),
          ∃ d, d ∈ ns.filter
            (fun x => decide (x ∉ (detectState m ns).processed)) ∧
            E m ns w d := by
        intro w hw
        rcases List.mem_filter.mp hw with ⟨hw1, hw2⟩
        have hwnp : w ∉ (detectState m ns).processed := by simpa using hw2
        have hdnz : (detectState m ns).deg w ≠ 0 :=
          fun h0 => hwnp ((hproc_zero w hw1).mpr h0)
        have hdeq := inv.degEq w hw1
        have hfne : (depsNS m ns w).filter
            (fun d => decide (d ∉ (detectState m ns).processed)) ≠ [] := by
          intro hnil
          rw [hnil] at hdeq
          simp at hdeq
          exact hdnz hdeq
        rcases List.exists_mem_of_ne_nil _ hfne with ⟨d, hd⟩
        rcases List.mem_filter.mp hd with ⟨hd1, hd2⟩
        refine ⟨d, List.mem_filter.mpr ⟨(depsNS_mem_ns hd1).2, hd2⟩, hd1⟩
      exact reaches_cycle_of_succ hsucc v
        (List.mem_filter.mpr ⟨hvns, by simpa using hvnp⟩)
    · rintro ⟨hvns, c, hreach, hcyc⟩
      refine List.mem_filter.mpr ⟨mem_sortStr.mpr hvns, ?_⟩
      have hvnp : v ∉ (detectState m ns).processed := by
        intro hvp
        exact hcyc_unproc c hcyc (hdown v c hreach hvp)
      have hdnz : (detectState m ns).deg v ≠ 0 :=
        fun h0 => hvnp ((hproc_zero v hvns).mpr h0)
      have hnn : 0 ≤ (detectState m ns).deg v := by
        rw [inv.degEq v hvns]
        exact Int.ofNat_nonneg _
      simp only [decide_eq_true_eq]
      omega
  · rw [if_neg hcase]
    constructor
    · intro h
      simp at h
    · rintro ⟨hvns, c, hreach, hcyc⟩
      exfalso
      have hcov := processed_cover hns inv (by omega)
      have hcns : c ∈ ns := by
        rcases (Relation.transGen_iff (E m ns) c c).mp hcyc with hE | ⟨d, _, hE⟩
        · exact (depsNS_mem_ns hE).1
        · exact (depsNS_mem_ns hE).2
      exact hcyc_unproc c hcyc (hcov c hcns)

/- ---------------------------------------------------------------------
   Claim C1
   --------------------------------------------------------------------- -/

/-- Counterexample to C1 as stated: with A ↔ B and C depending on A, the
candidate set contains C, yet C participates in no cycle of the restricted
graph (the candidate set is strictly larger than the set of cycle
participants). -/
theorem C1_counterexample :
    "C" ∈ detectCycles mC1ex nsC1ex ∧
    ¬ Relation.TransGen (E mC1ex nsC1ex) "C" "C" := by
  constructor
  · decide
  · intro h
    have hA : depsNS mC1ex nsC1ex "A" = ["B"] := by decide
    have hB : depsNS mC1ex nsC1ex "B" = ["A"] := by decide
    have hC : depsNS mC1ex nsC1ex "C" = ["A"] := by decide
    have hS : ∀ x y : String, E mC1ex nsC1ex x y →
        x ∈ (["A", "B"] : List String) → y ∈ (["A", "B"] : List String) := by
      intro x y hxy hx
      rcases List.mem_cons.mp hx with h1 | h1
      · subst h1
        rw [E, hA] at hxy
        simp at hxy
        simp [hxy]
      · have h1 : x = "B" := by simpa using h1
        subst h1
        rw [E, hB] at hxy
        simp at hxy
        simp [hxy]
    have hRT : ∀ x y : String, Relation.ReflTransGen (E mC1ex nsC1ex) x y →
        x ∈ (["A", "B"] : List String) → y ∈ (["A", "B"] : List String) := by
      intro x y hxy
      induction hxy with
      | refl => exact id
      | tail _ hE ih => intro hx; exact hS _ _ hE (ih hx)
    rcases Relation.TransGen.head'_iff.mp h with ⟨d, hE, hT⟩
    rw [E, hC] at hE
    have hd : d = "A" := by simpa using hE
    subst hd
    have : "C" ∈ (["A", "B"] : List String) := hRT "A" "C" hT (by simp)
    simp at this

/-- C1 amended: for every record map and node set (with the map-key and
dependency-key uniqueness the Go maps guarantee), the candidate set returned
by the cycle-detection pass is exactly the set of nodes from which some
cycle of the restricted graph is reachable along dependency edges — a
superset, in general strict, of the nodes participating in a cycle. -/
theorem C1_amended_candidates_reach_cycle (m : Modules) (ns : List String)
    (hkeys : (m.map Prod.fst).Nodup)
    (hdeps : ∀ p ∈ m, (depKeys p.2).Nodup) (hns : ns.Nodup) (v : String) :
    v ∈ detectCycles m ns ↔
    v ∈ ns ∧ ∃ c, Relation.ReflTransGen (E m ns) v c ∧
      Relation.TransGen (E m ns) c c :=
  detectCycles_mem_iff m ns hkeys hdeps hns v

/-- Witness for the amended C1: C is a candidate because it reaches the
cycle A ↔ B. -/
theorem C1_amended_witness : "C" ∈ detectCycles mC1ex nsC1ex :=
  (C1_amended_candidates_reach_cycle mC1ex nsC1ex (by decide) (by decide)
      (by decide) "C").mpr
    ⟨by decide, "A",
     Relation.ReflTransGen.single
       (show "A" ∈ depsNS mC1ex nsC1ex "C" by decide),
     Relation.TransGen.head
       (show "B" ∈ depsNS mC1ex nsC1ex "A" by decide)
       (Relation.TransGen.single
         (show "A" ∈ depsNS mC1ex nsC1ex "B" by decide))⟩

/- ---------------------------------------------------------------------
   Closed forms of the leveling pass's inner folds
   --------------------------------------------------------------------- -/

theorem any_congr {α : Type} {l : List α} {p q : α → Bool}
    (h : ∀ x ∈ l, p x = q x) : l.any p = l.any q := by
  induction l with
  | nil => rfl
  | cons a t ih =>
    rw [List.any_cons, List.any_cons, h a (List.mem_cons_self a t),
        ih (fun x hx => h x (List.mem_cons_of_mem a hx))]

theorem ph1Dec_foldl_spec (cyc : List String) :
    ∀ (nbrs : List String) (a : RoundAcc), nbrs.Nodup →
    (nbrs.foldl (ph1Dec cyc) a).processed = a.processed ∧
    (nbrs.foldl (ph1Dec cyc) a).levelNodes = a.levelNodes ∧
    (nbrs.foldl (ph1Dec cyc) a).deg = (fun x =>
      if x ∈ nbrs ∧ x ∉ a.processed ∧ x ∉ cyc then a.deg x - 1 else a.deg x) ∧
    (nbrs.foldl (ph1Dec cyc) a).nextQueue = a.nextQueue ++
      nbrs.filter (fun v =>
        decide (v ∉ a.processed) && decide (v ∉ cyc) && (a.deg v == 1)) ∧
    (nbrs.foldl (ph1Dec cyc) a).negFlag = (a.negFlag ||
      nbrs.any (fun v =>
        decide (v ∉ a.processed) && decide (v ∉ cyc) && decide (a.deg v < 1))) := by
  intro nbrs
  induction nbrs with
  | nil =>
    intro a _
    refine ⟨rfl, rfl, ?_, by simp, by simp⟩
    funext x
    simp
  | cons v t ih =>
    intro a hnd
    rw [List.nodup_cons] at hnd
    rw [List.foldl_cons]
    rcases ih (ph1Dec cyc a v) hnd.2 with ⟨ihp, ihl, ihd, ihq, ihn⟩
    have hpz : (ph1Dec cyc a v).processed = a.processed := by
      rw [ph1Dec]
      split <;> rfl
    have hlz : (ph1Dec cyc a v).levelNodes = a.levelNodes := by
      rw [ph1Dec]
      split <;> rfl
    have hdz : ∀ x, x ≠ v → (ph1Dec cyc a v).deg x = a.deg x := by
      intro x hx
      rw [ph1Dec]
      split
      · show (if x == v then _ else a.deg x) = a.deg x
        rw [if_neg (by simpa using hx)]
      · rfl
    by_cases hguard : v ∉ a.processed ∧ v ∉ cyc
    · have hg : (!a.processed.contains v && !cyc.contains v) = true := by
        simp [hguard.1, hguard.2]
      have hdv : (ph1Dec cyc a v).deg v = a.deg v - 1 := by
        rw [ph1Dec, if_pos hg]
        show (if v == v then a.deg v - 1 else a.deg v) = a.deg v - 1
        rw [if_pos (by simp)]
      have hqv : (ph1Dec cyc a v).nextQueue =
          a.nextQueue ++ (if a.deg v == 1 then [v] else []) := by
        rw [ph1Dec, if_pos hg]
        show (if a.deg v - 1 == 0 then a.nextQueue ++ [v] else a.nextQueue) = _
        by_cases h1 : a.deg v = 1
        · rw [if_pos (by simp [h1]), if_pos (by simp [h1])]
        · rw [if_neg (by simpa using (by omega : ¬ (a.deg v - 1 = 0))),
              if_neg (by simpa using h1)]
          simp
      have hnv : (ph1Dec cyc a v).negFlag =
          (a.negFlag || decide (a.deg v < 1)) := by
        rw [ph1Dec, if_pos hg]
        show (a.negFlag || decide (a.deg v - 1 < 0)) = _
        by_cases h1 : a.deg v < 1
        · rw [decide_eq_true (by omega : a.deg v - 1 < 0), decide_eq_true h1]
        · rw [decide_eq_false (by omega : ¬ (a.deg v - 1 < 0)),
              decide_eq_false h1]
      refine ⟨by rw [ihp, hpz], by rw [ihl, hlz], ?_, ?_, ?_⟩
      · rw [ihd]
        funext x
        by_cases hxv : x = v
        · subst hxv
          rw [if_neg (by intro hcontra; exact hnd.1 hcontra.1), hdv,
              if_pos ⟨List.mem_cons_self x t, hguard.1, hguard.2⟩]
        · rw [hpz, hdz x hxv]
          by_cases hxt : x ∈ t ∧ x ∉ a.processed ∧ x ∉ cyc
          · rw [if_pos hxt, if_pos ⟨List.mem_cons_of_mem v hxt.1, hxt.2.1, hxt.2.2⟩]
          · rw [if_neg hxt, if_neg (by
              intro hcontra
              exact hxt ⟨(List.mem_cons.mp hcontra.1).resolve_left hxv,
                hcontra.2.1, hcontra.2.2⟩)]
      · rw [ihq, hqv, hpz]
        have hfc : t.filter (fun x =>
            decide (x ∉ a.processed) && decide (x ∉ cyc) &&
              ((ph1Dec cyc a v).deg x == 1)) =
            t.filter (fun x =>
              decide (x ∉ a.processed) && decide (x ∉ cyc) && (a.deg x == 1)) := by
          refine List.filter_congr ?_
          intro x hx
          rw [hdz x (fun he => hnd.1 (he ▸ hx))]
        rw [hfc, List.filter_cons]
        by_cases hdv1 : a.deg v = 1
        · have hb : (decide (v ∉ a.processed) && decide (v ∉ cyc) &&
              (a.deg v == 1)) = true := by
            simp [hdv1]
            exact ⟨hguard.1, hguard.2⟩
          have hb2 : (a.deg v == 1) = true := by simp [hdv1]
          rw [hb, hb2, if_pos rfl, if_pos rfl]
          simp
        · have hb : (decide (v ∉ a.processed) && decide (v ∉ cyc) &&
              (a.deg v == 1)) = false := by
            simp [hdv1]
          have hb2 : (a.deg v == 1) = false := by simp [hdv1]
          rw [hb, hb2, if_neg (by simp), if_neg (by simp)]
          simp
      · rw [ihn, hnv, hpz]
        have hac : t.any (fun x =>
            decide (x ∉ a.processed) && decide (x ∉ cyc) &&
              decide ((ph1Dec cyc a v).deg x < 1)) =
            t.any (fun x =>
              decide (x ∉ a.processed) && decide (x ∉ cyc) &&
                decide (a.deg x < 1)) := by
          refine any_congr ?_
          intro x hx
          rw [hdz x (fun he => hnd.1 (he ▸ hx))]
        rw [hac, List.any_cons]
        have hpv : (decide (v ∉ a.processed) && decide (v ∉ cyc) &&
            decide (a.deg v < 1)) = decide (a.deg v < 1) := by
          simp [hguard.1, hguard.2]
        rw [hpv]
        cases a.negFlag <;> cases hdec : decide (a.deg v < 1) <;> simp
    · have hg : (!a.processed.contains v && !cyc.contains v) = false := by
        by_cases h1 : v ∈ a.processed
        · simp [h1]
        · have h2 : v ∈ cyc := by
            by_contra h2
            exact hguard ⟨h1, h2⟩
          simp [h2]
      have haz : ph1Dec cyc a v = a := by
        rw [ph1Dec, hg]
        rfl
      rw [haz] at ihp ihl ihd ihq ihn ⊢
      refine ⟨ihp, ihl, ?_, ?_, ?_⟩
      · rw [ihd]
        funext x
        by_cases hxv : x = v
        · subst hxv
          rw [if_neg (fun hc => hnd.1 hc.1), if_neg (fun hc => hguard ⟨hc.2.1, hc.2.2⟩)]
        · by_cases hxt : x ∈ t ∧ x ∉ a.processed ∧ x ∉ cyc
          · rw [if_pos hxt, if_pos ⟨List.mem_cons_of_mem v hxt.1, hxt.2.1, hxt.2.2⟩]
          · rw [if_neg hxt, if_neg (by
              intro hcontra
              exact hxt ⟨(List.mem_cons.mp hcontra.1).resolve_left hxv,
                hcontra.2.1, hcontra.2.2⟩)]
      · rw [ihq, List.filter_cons]
        have : (decide (v ∉ a.processed) && decide (v ∉ cyc) && (a.deg v == 1)) =
            false := by
          by_cases h1 : v ∈ a.processed
          · simp [h1]
          · have h2 : v ∈ cyc := by
              by_contra h2
              exact hguard ⟨h1, h2⟩
            simp [h2]
        rw [this]
        simp
      · rw [ihn, List.any_cons]
        have : (decide (v ∉ a.processed) && decide (v ∉ cyc) &&
            decide (a.deg v < 1)) = false := by
          by_cases h1 : v ∈ a.processed
          · simp [h1]
          · have h2 : v ∈ cyc := by
              by_contra h2
              exact hguard ⟨h1, h2⟩
            simp [h2]
        rw [this]
        simp

theorem ph3Dec_foldl_spec :
    ∀ (nbrs : List String) (a : RoundAcc), nbrs.Nodup →
    (nbrs.foldl ph3Dec a).processed = a.processed ∧
    (nbrs.foldl ph3Dec a).levelNodes = a.levelNodes ∧
    (nbrs.foldl ph3Dec a).deg = (fun x =>
      if x ∈ nbrs ∧ x ∉ a.processed then a.deg x - 1 else a.deg x) ∧
    (nbrs.foldl ph3Dec a).nextQueue = a.nextQueue ++
      nbrs.filter (fun v => decide (v ∉ a.processed) && (a.deg v == 1)) ∧
    (nbrs.foldl ph3Dec a).negFlag = (a.negFlag ||
      nbrs.any (fun v => decide (v ∉ a.processed) && decide (a.deg v < 1))) := by
  intro nbrs
  induction nbrs with
  | nil =>
    intro a _
    refine ⟨rfl, rfl, ?_, by simp, by simp⟩
    funext x
    simp
  | cons v t ih =>
    intro a hnd
    rw [List.nodup_cons] at hnd
    rw [List.foldl_cons]
    have hpz : (ph3Dec a v).processed = a.processed := by
      rw [ph3Dec]
      split <;> rfl
    have hlz : (ph3Dec a v).levelNodes = a.levelNodes := by
      rw [ph3Dec]
      split <;> rfl
    have hdz : ∀ x, x ≠ v → (ph3Dec a v).deg x = a.deg x := by
      intro x hx
      rw [ph3Dec]
      split
      · show (if x == v then _ else a.deg x) = a.deg x
        rw [if_neg (by simpa using hx)]
      · rfl
    rcases ih (ph3Dec a v) hnd.2 with ⟨ihp, ihl, ihd, ihq, ihn⟩
    by_cases hguard : v ∉ a.processed
    · have hg : (!a.processed.contains v) = true := by simp [hguard]
      have hdv : (ph3Dec a v).deg v = a.deg v - 1 := by
        rw [ph3Dec, if_pos hg]
        show (if v == v then a.deg v - 1 else a.deg v) = a.deg v - 1
        rw [if_pos (by simp)]
      have hqv : (ph3Dec a v).nextQueue =
          a.nextQueue ++ (if a.deg v == 1 then [v] else []) := by
        rw [ph3Dec, if_pos hg]
        show (if a.deg v - 1 == 0 then a.nextQueue ++ [v] else a.nextQueue) = _
        by_cases h1 : a.deg v = 1
        · rw [if_pos (by simp [h1]), if_pos (by simp [h1])]
        · rw [if_neg (by simpa using (by omega : ¬ (a.deg v - 1 = 0))),
              if_neg (by simpa using h1)]
          simp
      have hnv : (ph3Dec a v).negFlag = (a.negFlag || decide (a.deg v < 1)) := by
        rw [ph3Dec, if_pos hg]
        show (a.negFlag || decide (a.deg v - 1 < 0)) = _
        by_cases h1 : a.deg v < 1
        · rw [decide_eq_true (by omega : a.deg v - 1 < 0), decide_eq_true h1]
        · rw [decide_eq_false (by omega : ¬ (a.deg v - 1 < 0)),
              decide_eq_false h1]
      refine ⟨by rw [ihp, hpz], by rw [ihl, hlz], ?_, ?_, ?_⟩
      · rw [ihd]
        funext x
        by_cases hxv : x = v
        · subst hxv
          rw [if_neg (by intro hcontra; exact hnd.1 hcontra.1), hdv,
              if_pos ⟨List.mem_cons_self x t, hguard⟩]
        · rw [hpz, hdz x hxv]
          by_cases hxt : x ∈ t ∧ x ∉ a.processed
          · rw [if_pos hxt, if_pos ⟨List.mem_cons_of_mem v hxt.1, hxt.2⟩]
          · rw [if_neg hxt, if_neg (by
              intro hcontra
              exact hxt ⟨(List.mem_cons.mp hcontra.1).resolve_left hxv,
                hcontra.2⟩)]
      · rw [ihq, hqv, hpz]
        have hfc : t.filter (fun x =>
            decide (x ∉ a.processed) && ((ph3Dec a v).deg x == 1)) =
            t.filter (fun x => decide (x ∉ a.processed) && (a.deg x == 1)) := by
          refine List.filter_congr ?_
          intro x hx
          rw [hdz x (fun he => hnd.1 (he ▸ hx))]
        rw [hfc, List.filter_cons]
        by_cases hdv1 : a.deg v = 1
        · have hb : (decide (v ∉ a.processed) && (a.deg v == 1)) = true := by
            simp [hdv1]
            exact hguard
          have hb2 : (a.deg v == 1) = true := by simp [hdv1]
          rw [hb, hb2, if_pos rfl, if_pos rfl]
          simp
        · have hb : (decide (v ∉ a.processed) && (a.deg v == 1)) = false := by
            simp [hdv1]
          have hb2 : (a.deg v == 1) = false := by simp [hdv1]
          rw [hb, hb2, if_neg (by simp), if_neg (by simp)]
          simp
      · rw [ihn, hnv, hpz]
        have hac : t.any (fun x =>
            decide (x ∉ a.processed) && decide ((ph3Dec a v).deg x < 1)) =
            t.any (fun x => decide (x ∉ a.processed) && decide (a.deg x < 1)) := by
          refine any_congr ?_
          intro x hx
          rw [hdz x (fun he => hnd.1 (he ▸ hx))]
        rw [hac, List.any_cons]
        have hpv : (decide (v ∉ a.processed) && decide (a.deg v < 1)) =
            decide (a.deg v < 1) := by
          simp [hguard]
        rw [hpv]
        cases a.negFlag <;> cases hdec : decide (a.deg v < 1) <;> simp
    · have hvp : v ∈ a.processed := by
        by_contra h1
        exact hguard h1
      have hg : (!a.processed.contains v) = false := by simp [hvp]
      have haz : ph3Dec a v = a := by
        rw [ph3Dec, hg]
        rfl
      rw [haz] at ihp ihl ihd ihq ihn ⊢
      refine ⟨ihp, ihl, ?_, ?_, ?_⟩
      · rw [ihd]
        funext x
        by_cases hxv : x = v
        · subst hxv
          rw [if_neg (fun hc => hnd.1 hc.1), if_neg (fun hc => hc.2 hvp)]
        · by_cases hxt : x ∈ t ∧ x ∉ a.processed
          · rw [if_pos hxt, if_pos ⟨List.mem_cons_of_mem v hxt.1, hxt.2⟩]
          · rw [if_neg hxt, if_neg (by
              intro hcontra
              exact hxt ⟨(List.mem_cons.mp hcontra.1).resolve_left hxv,
                hcontra.2⟩)]
      · rw [ihq, List.filter_cons]
        have hb : (decide (v ∉ a.processed) && (a.deg v == 1)) = false := by
          simp [hvp]
        rw [hb, if_neg (by simp)]
      · rw [ihn, List.any_cons]
        have hb : (decide (v ∉ a.processed) && decide (a.deg v < 1)) = false := by
          simp [hvp]
        rw [hb]
        simp

theorem cycDec_foldl_spec :
    ∀ (nbrs : List String) (b : TopoState × List String), nbrs.Nodup →
    (∀ x ∈ nbrs, x ∈ b.2 → b.1.deg x = 0) →
    (nbrs.foldl cycDec b).1.processed = b.1.processed ∧
    (nbrs.foldl cycDec b).1.counter = b.1.counter ∧
    (nbrs.foldl cycDec b).1.levels = b.1.levels ∧
    (nbrs.foldl cycDec b).1.deg = (fun x =>
      if x ∈ nbrs ∧ x ∉ b.1.processed then b.1.deg x - 1 else b.1.deg x) ∧
    (nbrs.foldl cycDec b).1.negFlag = (b.1.negFlag ||
      nbrs.any (fun v => decide (v ∉ b.1.processed) && decide (b.1.deg v < 1))) ∧
    (nbrs.foldl cycDec b).2 = b.2 ++
      nbrs.filter (fun v => decide (v ∉ b.1.processed) && (b.1.deg v == 1)) := by
  intro nbrs
  induction nbrs with
  | nil =>
    intro b _ _
    refine ⟨rfl, rfl, rfl, ?_, by simp, by simp⟩
    funext x
    simp
  | cons v t ih =>
    intro b hnd hqz
    rw [List.nodup_cons] at hnd
    rw [List.foldl_cons]
    have hpz : (cycDec b v).1.processed = b.1.processed := by
      rw [cycDec]
      split <;> rfl
    have hcz : (cycDec b v).1.counter = b.1.counter := by
      rw [cycDec]
      split <;> rfl
    have hlz : (cycDec b v).1.levels = b.1.levels := by
      rw [cycDec]
      split <;> rfl
    have hdz : ∀ x, x ≠ v → (cycDec b v).1.deg x = b.1.deg x := by
      intro x hx
      rw [cycDec]
      split
      · show (if x == v then _ else b.1.deg x) = b.1.deg x
        rw [if_neg (by simpa using hx)]
      · rfl
    by_cases hguard : v ∉ b.1.processed
    · have hg : (!b.1.processed.contains v) = true := by simp [hguard]
      have hdv : (cycDec b v).1.deg v = b.1.deg v - 1 := by
        rw [cycDec, if_pos hg]
        show (if v == v then b.1.deg v - 1 else b.1.deg v) = b.1.deg v - 1
        rw [if_pos (by simp)]
      have hnv : (cycDec b v).1.negFlag =
          (b.1.negFlag || decide (b.1.deg v < 1)) := by
        rw [cycDec, if_pos hg]
        show (b.1.negFlag || decide (b.1.deg v - 1 < 0)) = _
        by_cases h1 : b.1.deg v < 1
        · rw [decide_eq_true (by omega : b.1.deg v - 1 < 0), decide_eq_true h1]
        · rw [decide_eq_false (by omega : ¬ (b.1.deg v - 1 < 0)),
              decide_eq_false h1]
      have hqv : (cycDec b v).2 = b.2 ++ (if b.1.deg v == 1 then [v] else []) := by
        rw [cycDec, if_pos hg]
        show (if b.1.deg v - 1 == 0 then
          (if b.2.contains v then b.2 else b.2 ++ [v]) else b.2) = _
        by_cases h1 : b.1.deg v = 1
        · have hnq : v ∉ b.2 := by
            intro hvq
            have := hqz v (List.mem_cons_self v t) hvq
            omega
          have hc1 : (b.1.deg v - 1 == 0) = true := by simp [h1]
          have hc2 : (b.1.deg v == 1) = true := by simp [h1]
          have hc3 : (b.2.contains v) = false := by simpa using hnq
          rw [hc1, if_pos rfl, hc3, if_neg (by simp), hc2, if_pos rfl]
        · rw [if_neg (by simpa using (by omega : ¬ (b.1.deg v - 1 = 0))),
              if_neg (by simpa using h1)]
          simp
      have hq2 : ∀ x ∈ t, x ∈ (cycDec b v).2 → (cycDec b v).1.deg x = 0 := by
        intro x hx hxq
        rw [hqv] at hxq
        rw [hdz x (fun he => hnd.1 (he ▸ hx))]
        rcases List.mem_append.mp hxq with h1 | h1
        · exact hqz x (List.mem_cons_of_mem v hx) h1
        · exfalso
          have : x = v := by
            by_cases hc : b.1.deg v = 1 <;> simp [hc] at h1
            · exact h1
          exact hnd.1 (this ▸ hx)
      rcases ih (cycDec b v) hnd.2 hq2 with ⟨ihp, ihc, ihl, ihd, ihn, ihq⟩
      refine ⟨by rw [ihp, hpz], by rw [ihc, hcz], by rw [ihl, hlz], ?_, ?_, ?_⟩
      · rw [ihd]
        funext x
        by_cases hxv : x = v
        · subst hxv
          rw [if_neg (by intro hcontra; exact hnd.1 hcontra.1), hdv,
              if_pos ⟨List.mem_cons_self x t, hguard⟩]
        · rw [hpz, hdz x hxv]
          by_cases hxt : x ∈ t ∧ x ∉ b.1.processed
          · rw [if_pos hxt, if_pos ⟨List.mem_cons_of_mem v hxt.1, hxt.2⟩]
          · rw [if_neg hxt, if_neg (by
              intro hcontra
              exact hxt ⟨(List.mem_cons.mp hcontra.1).resolve_left hxv,
                hcontra.2⟩)]
      · rw [ihn, hnv, hpz]
        have hac : t.any (fun x =>
            decide (x ∉ b.1.processed) && decide ((cycDec b v).1.deg x < 1)) =
            t.any (fun x =>
              decide (x ∉ b.1.processed) && decide (b.1.deg x < 1)) := by
          refine any_congr ?_
          intro x hx
          rw [hdz x (fun he => hnd.1 (he ▸ hx))]
        rw [hac, List.any_cons]
        have hpv : (decide (v ∉ b.1.processed) && decide (b.1.deg v < 1)) =
            decide (b.1.deg v < 1) := by
          simp [hguard]
        rw [hpv]
        cases b.1.negFlag <;> cases hdec : decide (b.1.deg v < 1) <;> simp
      · rw [ihq, hqv, hpz]
        have hfc : t.filter (fun x =>
            decide (x ∉ b.1.processed) && ((cycDec b v).1.deg x == 1)) =
            t.filter (fun x =>
              decide (x ∉ b.1.processed) && (b.1.deg x == 1)) := by
          refine List.filter_congr ?_
          intro x hx
          rw [hdz x (fun he => hnd.1 (he ▸ hx))]
        rw [hfc, List.filter_cons]
        by_cases hdv1 : b.1.deg v = 1
        · have hb : (decide (v ∉ b.1.processed) && (b.1.deg v == 1)) = true := by
            simp [hdv1]
            exact hguard
          have hb2 : (b.1.deg v == 1) = true := by simp [hdv1]
          rw [hb, hb2, if_pos rfl, if_pos rfl]
          simp
        · have hb : (decide (v ∉ b.1.processed) && (b.1.deg v == 1)) = false := by
            simp [hdv1]
          have hb2 : (b.1.deg v == 1) = false := by simp [hdv1]
          rw [hb, hb2, if_neg (by simp), if_neg (by simp)]
          simp
    · have hvp : v ∈ b.1.processed := by
        by_contra h1
        exact hguard h1
      have hg : (!b.1.processed.contains v) = false := by simp [hvp]
      have haz : cycDec b v = b := by
        rw [cycDec, hg]
        rfl
      have hq2 : ∀ x ∈ t, x ∈ (cycDec b v).2 → (cycDec b v).1.deg x = 0 := by
        rw [haz]
        intro x hx hxq
        exact hqz x (List.mem_cons_of_mem v hx) hxq
      rcases ih (cycDec b v) hnd.2 hq2 with ⟨ihp, ihc, ihl, ihd, ihn, ihq⟩
      rw [haz] at ihp ihc ihl ihd ihn ihq ⊢
      refine ⟨ihp, ihc, ihl, ?_, ?_, ?_⟩
      · rw [ihd]
        funext x
        by_cases hxv : x = v
        · subst hxv
          rw [if_neg (fun hc => hnd.1 hc.1), if_neg (fun hc => hc.2 hvp)]
        · by_cases hxt : x ∈ t ∧ x ∉ b.1.processed
          · rw [if_pos hxt, if_pos ⟨List.mem_cons_of_mem v hxt.1, hxt.2⟩]
          · rw [if_neg hxt, if_neg (by
              intro hcontra
              exact hxt ⟨(List.mem_cons.mp hcontra.1).resolve_left hxv,
                hcontra.2⟩)]
      · rw [ihn, List.any_cons]
        have hb : (decide (v ∉ b.1.processed) && decide (b.1.deg v < 1)) =
            false := by
          simp [hvp]
        rw [hb]
        simp
      · rw [ihq, List.filter_cons]
        have hb : (decide (v ∉ b.1.processed) && (b.1.deg v == 1)) = false := by
          simp [hvp]
        rw [hb, if_neg (by simp)]

/- ---------------------------------------------------------------------
   Remaining-dependency counts
   --------------------------------------------------------------------- -/

/-- Number of in-set dependencies of `v` not yet in the list `P`. -/
def remCnt (m : Modules) (ns : List String) (P : List String) (v : String) : Nat :=
  ((depsNS m ns v).filter (fun d => decide (d ∉ P))).length

theorem remCnt_nil (m : Modules) (ns : List String) (v : String) :
    remCnt m ns [] v = (depsNS m ns v).length := by
  rw [remCnt]
  have : (depsNS m ns v).filter (fun d => decide (d ∉ ([] : List String))) =
      depsNS m ns v := by
    refine List.filter_eq_self.mpr ?_
    intro d _
    simp
  rw [this]

theorem remCnt_snoc_mem {m : Modules} {ns : List String}
    (hdeps : ∀ p ∈ m, (depKeys p.2).Nodup) {P : List String} {u v : String}
    (hul : u ∈ depsNS m ns v) (hup : u ∉ P) :
    remCnt m ns (P ++ [u]) v + 1 = remCnt m ns P v :=
  filter_notmem_snoc_len (depsNS_nodup hdeps v) hul hup

theorem remCnt_snoc_not_mem {m : Modules} {ns : List String}
    {P : List String} {u v : String} (hul : u ∉ depsNS m ns v) :
    remCnt m ns (P ++ [u]) v = remCnt m ns P v := by
  rw [remCnt, remCnt, filter_notmem_snoc_eq hul]

theorem remCnt_mono {m : Modules} {ns : List String} {P P' : List String}
    {v : String} (h : ∀ x ∈ P, x ∈ P') :
    remCnt m ns P' v ≤ remCnt m ns P v := by
  rw [remCnt, remCnt]
  induction depsNS m ns v with
  | nil => simp
  | cons a t ih =>
    rw [List.filter_cons, List.filter_cons]
    by_cases haP : a ∈ P
    · have h1 : (decide (a ∉ P)) = false := by simpa using haP
      have h2 : (decide (a ∉ P')) = false := by simpa using h a haP
      rw [h1, h2]
      simpa using ih
    · have h1 : (decide (a ∉ P)) = true := by simpa using haP
      rw [h1, if_pos rfl]
      by_cases haP' : a ∈ P'
      · have h2 : (decide (a ∉ P')) = false := by simpa using haP'
        rw [h2, if_neg (by simp)]
        simp only [List.length_cons]
        omega
      · have h2 : (decide (a ∉ P')) = true := by simpa using haP'
        rw [h2, if_pos rfl]
        simp only [List.length_cons]
        omega

theorem remCnt_zero_deps {m : Modules} {ns : List String} {P : List String}
    {v : String} (h : remCnt m ns P v = 0) : ∀ d ∈ depsNS m ns v, d ∈ P := by
  intro d hd
  by_contra hdn
  have hdf : d ∈ (depsNS m ns v).filter (fun d => decide (d ∉ P)) :=
    List.mem_filter.mpr ⟨hd, by simpa using hdn⟩
  rw [remCnt] at h
  rw [List.length_eq_zero.mp h] at hdf
  simp at hdf

theorem remCnt_pos {m : Modules} {ns : List String} {P : List String}
    {v d : String} (hd : d ∈ depsNS m ns v) (hdp : d ∉ P) :
    remCnt m ns P v ≠ 0 := by
  intro h0
  exact hdp (remCnt_zero_deps h0 d hd)

theorem depsNS_nil_of_not_mem {m : Modules} {ns : List String} {v : String}
    (h : v ∉ ns) : depsNS m ns v = [] := by
  rw [depsNS, if_neg (by simpa using h)]

theorem mem_ns_of_remCnt_ne {m : Modules} {ns : List String} {P : List String}
    {v : String} (h : remCnt m ns P v ≠ 0) : v ∈ ns := by
  by_contra hv
  rw [remCnt, depsNS_nil_of_not_mem hv] at h
  simp at h

/- ---------------------------------------------------------------------
   Well-formed level sequences
   --------------------------------------------------------------------- -/

/-- The emitted levels are well formed: each level's members outside the
cycle set have all their in-set dependencies inside the earlier levels, and
the processed list is exactly the concatenation of the levels. -/
inductive LevelsGood (m : Modules) (ns cyc : List String) :
    List String → List (Nat × String × List String) → Prop
  | nil : LevelsGood m ns cyc [] []
  | snoc (P : List String) (L : List (Nat × String × List String))
      (ctr : Nat) (nm : String) (lvl : List String) :
      LevelsGood m ns cyc P L →
      (∀ a ∈ lvl, a ∉ cyc → ∀ d ∈ depsNS m ns a, d ∈ P) →
      LevelsGood m ns cyc (P ++ lvl) (L ++ [(ctr, nm, lvl)])

theorem LevelsGood.flatten_eq {m : Modules} {ns cyc : List String}
    {P : List String} {L : List (Nat × String × List String)}
    (h : LevelsGood m ns cyc P L) :
    (L.map (fun lv => lv.2.2)).flatten = P := by
  induction h with
  | nil => rfl
  | snoc P₀ L₀ ctr nm lvl _ _ ih =>
    rw [List.map_append, List.flatten_append, ih]
    simp

theorem LevelsGood.dep_before {m : Modules} {ns cyc : List String}
    {P : List String} {L : List (Nat × String × List String)}
    (h : LevelsGood m ns cyc P L) :
    ∀ L1 lv L2, L = L1 ++ lv :: L2 → ∀ a ∈ lv.2.2, a ∉ cyc →
    ∀ d ∈ depsNS m ns a, d ∈ (L1.map (fun l => l.2.2)).flatten := by
  induction h with
  | nil =>
    intro L1 lv L2 hsp
    exact absurd hsp (by simp)
  | snoc P₀ L₀ ctr nm lvl hgood hcl ih =>
    intro L1 lv L2 hsp a ha hacyc d hd
    rcases List.eq_nil_or_concat L2 with h2 | ⟨L2', x', h2⟩
    · subst h2
      have hsp' : L₀ ++ [(ctr, nm, lvl)] = L1 ++ [lv] := by
        rw [hsp]
      have hinj := List.append_inj' hsp' (by simp)
      have hlv : lv = (ctr, nm, lvl) := by
        have := hinj.2
        simpa using this.symm
      rw [← hinj.1, hgood.flatten_eq]
      refine hcl a ?_ hacyc d hd
      rw [hlv] at ha
      exact ha
    · subst h2
      have hsp' : L₀ ++ [(ctr, nm, lvl)] = (L1 ++ lv :: L2') ++ [x'] := by
        rw [hsp]
        simp
      have hinj := List.append_inj' hsp' (by simp)
      exact ih L1 lv L2' hinj.1 a ha hacyc d hd

theorem mem_join_map_levels {b : String}
    {L : List (Nat × String × List String)} :
    b ∈ (L.map (fun l => l.2.2)).flatten ↔ ∃ lv ∈ L, b ∈ lv.2.2 := by
  rw [List.mem_flatten]
  constructor
  · rintro ⟨l, hl, hb⟩
    rcases List.mem_map.mp hl with ⟨lv, hlv, hlveq⟩
    exact ⟨lv, hlv, hlveq ▸ hb⟩
  · rintro ⟨lv, hlv, hb⟩
    exact ⟨lv.2.2, List.mem_map_of_mem _ hlv, hb⟩

theorem mem_join_split {b : String} :
    ∀ {L L1 L2 L1' L2' : List (Nat × String × List String)}
      {lv lv' : Nat × String × List String},
    ((L.map (fun l => l.2.2)).flatten).Nodup →
    L = L1 ++ lv :: L2 → L = L1' ++ lv' :: L2' →
    b ∈ lv.2.2 → b ∈ lv'.2.2 → lv = lv' := by
  intro L
  induction L with
  | nil =>
    intro L1 L2 L1' L2' lv lv' _ hsp
    exact absurd hsp (by simp)
  | cons x t ih =>
    intro L1 L2 L1' L2' lv lv' hnd hsp hsp' hb hb'
    have hndt : ((t.map (fun l => l.2.2)).flatten).Nodup := by
      have : ((x :: t).map (fun l => l.2.2)).flatten =
          x.2.2 ++ (t.map (fun l => l.2.2)).flatten := by simp
      rw [this] at hnd
      exact (List.nodup_append.mp hnd).2.1
    have hdisj : ∀ y ∈ x.2.2, y ∉ (t.map (fun l => l.2.2)).flatten := by
      have : ((x :: t).map (fun l => l.2.2)).flatten =
          x.2.2 ++ (t.map (fun l => l.2.2)).flatten := by simp
      rw [this] at hnd
      intro y hy hy'
      exact (List.nodup_append.mp hnd).2.2 hy hy'
    cases L1 with
    | nil =>
      have hx : x = lv ∧ t = L2 := by
        have := hsp
        simp at this
        exact ⟨this.1, this.2⟩
      cases L1' with
      | nil =>
        have hx' : x = lv' := by
          have := hsp'
          simp at this
          exact this.1
        rw [← hx.1, ← hx']
      | cons y' t' =>
        exfalso
        have hteq : x = y' ∧ t = t' ++ lv' :: L2' := by
          have := hsp'
          simp at this
          exact ⟨this.1, this.2⟩
        have hlv'mem : lv' ∈ t := by
          rw [hteq.2]
          exact List.mem_append.mpr (Or.inr (List.mem_cons_self lv' L2'))
        have hbj : b ∈ (t.map (fun l => l.2.2)).flatten :=
          mem_join_map_levels.mpr ⟨lv', hlv'mem, hb'⟩
        have hbx : b ∈ x.2.2 := by
          rw [hx.1]
          exact hb
        exact hdisj b hbx hbj
    | cons y t1 =>
      cases L1' with
      | nil =>
        exfalso
        have hteq : x = y ∧ t = t1 ++ lv :: L2 := by
          have := hsp
          simp at this
          exact ⟨this.1, this.2⟩
        have hx' : x = lv' := by
          have := hsp'
          simp at this
          exact this.1
        have hlvmem : lv ∈ t := by
          rw [hteq.2]
          exact List.mem_append.mpr (Or.inr (List.mem_cons_self lv L2))
        have hbj : b ∈ (t.map (fun l => l.2.2)).flatten :=
          mem_join_map_levels.mpr ⟨lv, hlvmem, hb⟩
        have hbx : b ∈ x.2.2 := by
          rw [hx']
          exact hb'
        exact hdisj b hbx hbj
      | cons y' t1' =>
        have h1 : x = y ∧ t = t1 ++ lv :: L2 := by
          have := hsp
          simp at this
          exact ⟨this.1, this.2⟩
        have h2 : x = y' ∧ t = t1' ++ lv' :: L2' := by
          have := hsp'
          simp at this
          exact ⟨this.1, this.2⟩
        exact ih hndt h1.2 h2.2 hb hb'

theorem range_split_lt {n : Nat} {U V W : List Nat} {x y : Nat}
    (h : List.range n = U ++ x :: (V ++ y :: W)) : x < y := by
  have hp : (U ++ x :: (V ++ y :: W)).Pairwise (fun a b => a < b) := by
    rw [← h]
    exact List.pairwise_lt_range n
  have h2 := (List.pairwise_append.mp hp).2.1
  have h3 := List.pairwise_cons.mp h2
  exact h3.1 y (List.mem_append.mpr (Or.inr (List.mem_cons_self y W)))

/- ---------------------------------------------------------------------
   Refinement keeps genuine cycle nodes
   --------------------------------------------------------------------- -/

theorem depsNS_lookup {m : Modules} {ns : List String} {u d : String}
    (h : d ∈ depsNS m ns u) :
    ∃ info, mlookup m u = some info ∧ d ∈ depKeys info := by
  rw [depsNS] at h
  by_cases hu : ns.contains u
  · rw [if_pos hu] at h
    rcases hl : mlookup m u with _ | info <;> rw [hl] at h
    · simp at h
    · exact ⟨info, rfl, (List.mem_filter.mp h).1⟩
  · rw [if_neg hu] at h
    simp at h

theorem filterStep_keeps_cycles {m : Modules} {ns : List String}
    (hpath : ∀ p ∈ m, p.2.path = p.1) {S : List String}
    (hS : ∀ x ∈ ns, Relation.TransGen (E m ns) x x → x ∈ S) :
    ∀ x ∈ ns, Relation.TransGen (E m ns) x x → x ∈ filterStep m S := by
  intro x hx htg
  rw [filterStep]
  refine List.mem_filter.mpr ⟨hS x hx htg, ?_⟩
  rcases Relation.TransGen.tail'_iff.mp htg with ⟨b, hxb, hbx⟩
  have hbcyc : Relation.TransGen (E m ns) b b := Relation.TransGen.head' hbx hxb
  have hbns : b ∈ ns := (depsNS_mem_ns hbx).1
  have hbS : b ∈ S := hS b hbns hbcyc
  rcases depsNS_lookup hbx with ⟨info, hlk, hdk⟩
  have hmem : (b, info) ∈ m := mem_of_mlookup hlk
  rw [isNodeDependedOn]
  refine List.any_eq_true.mpr ⟨(b, info), hmem, ?_⟩
  have hp : info.path = b := hpath (b, info) hmem
  simp [hp, hbS, hdk]

theorem refineGo_keeps_cycles {m : Modules} {ns : List String}
    (hpath : ∀ p ∈ m, p.2.path = p.1) :
    ∀ (fuel : Nat) (S : List String),
    (∀ x ∈ ns, Relation.TransGen (E m ns) x x → x ∈ S) →
    ∀ x ∈ ns, Relation.TransGen (E m ns) x x → x ∈ (refineGo m fuel S).1 := by
  intro fuel
  induction fuel with
  | zero =>
    intro S hS x hx htg
    rw [refineGo]
    exact hS x hx htg
  | succ k ih =>
    intro S hS x hx htg
    rw [refineGo]
    by_cases he : S.isEmpty
    · rw [if_pos he]
      exact hS x hx htg
    · rw [if_neg he]
      by_cases hl : (filterStep m S).length = S.length
      · rw [if_pos hl]
        exact hS x hx htg
      · rw [if_neg hl]
        exact ih (filterStep m S) (filterStep_keeps_cycles hpath hS) x hx htg

theorem refineGo_sublist (m : Modules) :
    ∀ (fuel : Nat) (S : List String), List.Sublist (refineGo m fuel S).1 S := by
  intro fuel
  induction fuel with
  | zero =>
    intro S
    rw [refineGo]
  | succ k ih =>
    intro S
    rw [refineGo]
    by_cases he : S.isEmpty
    · rw [if_pos he]
    · rw [if_neg he]
      by_cases hl : (filterStep m S).length = S.length
      · rw [if_pos hl]
      · rw [if_neg hl]
        exact (ih (filterStep m S)).trans (List.filter_sublist S)

theorem detectCycles_nodup {m : Modules} {ns : List String} (hns : ns.Nodup) :
    (detectCycles m ns).Nodup := by
  rw [detectCycles]
  by_cases h : (detectState m ns).processed.length < ns.length
  · rw [if_pos h]
    exact (sortStr_nodup hns).filter _
  · rw [if_neg h]
    exact List.nodup_nil

theorem detectCycles_sub_ns {m : Modules} {ns : List String} :
    ∀ x ∈ detectCycles m ns, x ∈ ns := by
  intro x hx
  rw [detectCycles] at hx
  by_cases h : (detectState m ns).processed.length < ns.length
  · rw [if_pos h] at hx
    exact mem_sortStr.mp (List.mem_filter.mp hx).1
  · rw [if_neg h] at hx
    simp at hx

theorem refined_nodup {m : Modules} {ns : List String} (hns : ns.Nodup) :
    (filterOutUnusedNodes m (detectCycles m ns)).Nodup :=
  (refineGo_sublist m (detectCycles m ns).length (detectCycles m ns)).nodup
    (detectCycles_nodup hns)

theorem refined_sub_ns {m : Modules} {ns : List String} :
    ∀ x ∈ filterOutUnusedNodes m (detectCycles m ns), x ∈ ns := by
  intro x hx
  rw [filterOutUnusedNodes, refineAux] at hx
  exact detectCycles_sub_ns x
    ((refineGo_sublist m (detectCycles m ns).length (detectCycles m ns)).subset hx)

theorem cycles_in_refined {m : Modules} {ns : List String}
    (hkeys : (m.map Prod.fst).Nodup) (hdeps : ∀ p ∈ m, (depKeys p.2).Nodup)
    (hns : ns.Nodup) (hpath : ∀ p ∈ m, p.2.path = p.1) :
    ∀ x ∈ ns, Relation.TransGen (E m ns) x x →
    x ∈ filterOutUnusedNodes m (detectCycles m ns) := by
  intro x hx htg
  rw [filterOutUnusedNodes, refineAux]
  refine refineGo_keeps_cycles hpath _ _ ?_ x hx htg
  intro y hy htgy
  exact (detectCycles_mem_iff m ns hkeys hdeps hns y).mpr
    ⟨hy, y, Relation.ReflTransGen.refl, htgy⟩

/- ---------------------------------------------------------------------
   Invariants of the leveling rounds
   --------------------------------------------------------------------- -/

/-- Invariant of the leveling pass between rounds.  `C` is the guard set
the decrement steps skip (the cycle set in the pre-cycle phase, empty in
the post-cycle phase); `cyc` is the exemption set of the level
bookkeeping; `Q` the pending queue. -/
structure LvInv (m : Modules) (ns C cyc Q : List String) (st : TopoState) :
    Prop where
  procNodup : st.processed.Nodup
  procSub : ∀ u ∈ st.processed, u ∈ ns
  procC : ∀ u ∈ st.processed, u ∉ C
  qNodup : Q.Nodup
  qSub : ∀ u ∈ Q, u ∈ ns
  qProc : ∀ u ∈ Q, u ∉ st.processed
  qC : ∀ u ∈ Q, u ∉ C
  degEq : ∀ v, v ∉ st.processed → v ∉ C →
    st.deg v = (remCnt m ns st.processed v : Int)
  qZero : ∀ v ∈ Q, st.deg v = 0
  zeroIn : ∀ v ∈ ns, v ∉ C → v ∉ st.processed →
    remCnt m ns st.processed v = 0 → v ∈ Q
  negF : st.negFlag = false
  lvGood : LevelsGood m ns cyc st.processed st.levels
  levCtr : st.levels.map (fun lv => lv.1) = List.range st.counter

/-- Invariant while one level's queue is consumed: `P0` is the processed
list at the round's start and `Q0` the round's whole queue. -/
structure RInv (m : Modules) (ns C P0 Q0 : List String)
    (todo : List String) (a : RoundAcc) : Prop where
  procNodup : a.processed.Nodup
  procSub : ∀ u ∈ a.processed, u ∈ ns
  procC : ∀ u ∈ a.processed, u ∉ C
  split : a.levelNodes ++ todo = Q0
  tNodup : todo.Nodup
  tSub : ∀ u ∈ todo, u ∈ ns
  tProc : ∀ u ∈ todo, u ∉ a.processed
  tC : ∀ u ∈ todo, u ∉ C
  tZero0 : ∀ v ∈ todo, remCnt m ns P0 v = 0
  degEq : ∀ v, v ∉ a.processed → v ∉ C →
    a.deg v = (remCnt m ns a.processed v : Int)
  procLvl : a.processed = P0 ++ a.levelNodes
  nqNodup : a.nextQueue.Nodup
  nqChar : ∀ v, v ∈ a.nextQueue ↔ (v ∈ ns ∧ v ∉ C ∧ v ∉ a.processed ∧
    remCnt m ns a.processed v = 0 ∧ remCnt m ns P0 v ≠ 0)
  negF : a.negFlag = false

theorem rstep_inv_aux {m : Modules} {ns : List String}
    (hkeys : (m.map Prod.fst).Nodup) (hdeps : ∀ p ∈ m, (depKeys p.2).Nodup)
    {C P0 Q0 : List String} {u : String} {T : List String} {a af : RoundAcc}
    (inv : RInv m ns C P0 Q0 (u :: T) a)
    (hfp : af.processed = a.processed ++ [u])
    (hfl : af.levelNodes = a.levelNodes ++ [u])
    (hfd : af.deg = fun x =>
      if x ∈ sortStr (revAdj m ns u) ∧ x ∉ a.processed ++ [u] ∧ x ∉ C
      then a.deg x - 1 else a.deg x)
    (hfq : af.nextQueue = a.nextQueue ++ (sortStr (revAdj m ns u)).filter
      (fun v => decide (v ∉ a.processed ++ [u]) && decide (v ∉ C) &&
        (a.deg v == 1)))
    (hfn : af.negFlag = (a.negFlag || (sortStr (revAdj m ns u)).any
      (fun v => decide (v ∉ a.processed ++ [u]) && decide (v ∉ C) &&
        decide (a.deg v < 1)))) :
    RInv m ns C P0 Q0 T af := by
  have huT : u ∈ u :: T := List.mem_cons_self u T
  have huC : u ∉ C := inv.tC u huT
  have huns : u ∈ ns := inv.tSub u huT
  have hup : u ∉ a.processed := inv.tProc u huT
  have huz0 : remCnt m ns P0 u = 0 := inv.tZero0 u huT
  have htnd : u ∉ T ∧ T.Nodup := List.nodup_cons.mp inv.tNodup
  have hnmem : ∀ x : String, x ∈ sortStr (revAdj m ns u) ↔ u ∈ depsNS m ns x :=
    fun x => by rw [mem_sortStr, mem_revAdj hkeys]
  have hnbrs : (sortStr (revAdj m ns u)).Nodup :=
    sortStr_nodup (revAdj_nodup hkeys u)
  have hP0sub : ∀ x ∈ P0, x ∈ a.processed := by
    intro x hx
    rw [inv.procLvl]
    exact List.mem_append.mpr (Or.inl hx)
  have hdegv : ∀ v, af.deg v =
      if v ∈ sortStr (revAdj m ns u) ∧ v ∉ a.processed ++ [u] ∧ v ∉ C
      then a.deg v - 1 else a.deg v := by
    intro v
    rw [hfd]
  refine ⟨?_, ?_, ?_, ?_, htnd.2, ?_, ?_, ?_, ?_, ?_, ?_, ?_, ?_, ?_⟩
  · rw [hfp]
    exact nodup_snoc inv.procNodup hup
  · rw [hfp]
    intro x hx
    rcases List.mem_append.mp hx with h | h
    · exact inv.procSub x h
    · have : x = u := by simpa using h
      exact this ▸ huns
  · rw [hfp]
    intro x hx
    rcases List.mem_append.mp hx with h | h
    · exact inv.procC x h
    · have : x = u := by simpa using h
      exact this ▸ huC
  · rw [hfl, List.append_assoc, List.singleton_append]
    exact inv.split
  · intro x hx
    exact inv.tSub x (List.mem_cons_of_mem u hx)
  · rw [hfp]
    intro x hx hc
    rcases List.mem_append.mp hc with h | h
    · exact inv.tProc x (List.mem_cons_of_mem u hx) h
    · have : x = u := by simpa using h
      exact htnd.1 (this ▸ hx)
  · intro x hx
    exact inv.tC x (List.mem_cons_of_mem u hx)
  · intro v hv
    exact inv.tZero0 v (List.mem_cons_of_mem u hv)
  · intro v hvp hvC
    rw [hfp] at hvp
    rw [hfp, hdegv v]
    have hvpa : v ∉ a.processed := fun hc =>
      hvp (List.mem_append.mpr (Or.inl hc))
    by_cases hvn : v ∈ sortStr (revAdj m ns u)
    · rw [if_pos ⟨hvn, hvp, hvC⟩]
      have hud : u ∈ depsNS m ns v := (hnmem v).mp hvn
      have hcnt := remCnt_snoc_mem hdeps hud hup
      have hold := inv.degEq v hvpa hvC
      omega
    · rw [if_neg (fun hc => hvn hc.1)]
      have hud : u ∉ depsNS m ns v := fun hud => hvn ((hnmem v).mpr hud)
      rw [remCnt_snoc_not_mem hud]
      exact inv.degEq v hvpa hvC
  · rw [hfp, hfl, inv.procLvl, List.append_assoc]
  · rw [hfq]
    rw [List.nodup_append]
    refine ⟨inv.nqNodup, hnbrs.filter _, ?_⟩
    intro x hx hx2
    rcases (inv.nqChar x).mp hx with ⟨_, hxC, hxP, hx0, _⟩
    have h2 := (List.mem_filter.mp hx2).2
    have h3 : ((x ∉ a.processed ∧ ¬x = u) ∧ x ∉ C) ∧ a.deg x = 1 := by
      simpa using h2
    have h4 := inv.degEq x hxP hxC
    have h5 := h3.2
    omega
  · intro v
    rw [hfq, hfp]
    constructor
    · intro hv
      rcases List.mem_append.mp hv with h | h
      · rcases (inv.nqChar v).mp h with ⟨hns', hC', hP', h0, hne0⟩
        have hvu : v ≠ u := by
          intro he
          rw [he] at hne0
          exact hne0 huz0
        refine ⟨hns', hC', ?_, ?_, hne0⟩
        · intro hc
          rcases List.mem_append.mp hc with h1 | h1
          · exact hP' h1
          · exact hvu (by simpa using h1)
        · have hmono : remCnt m ns (a.processed ++ [u]) v ≤
              remCnt m ns a.processed v :=
            remCnt_mono (fun x hx => List.mem_append.mpr (Or.inl hx))
          omega
      · have hvn : v ∈ sortStr (revAdj m ns u) := (List.mem_filter.mp h).1
        have hpred := (List.mem_filter.mp h).2
        have hprop : ((v ∉ a.processed ∧ ¬v = u) ∧ v ∉ C) ∧ a.deg v = 1 := by
          simpa using hpred
        have hud : u ∈ depsNS m ns v := (hnmem v).mp hvn
        have hvns : v ∈ ns := (depsNS_mem_ns hud).1
        have hvpa : v ∉ a.processed := hprop.1.1.1
        have hvC : v ∉ C := hprop.1.2
        have hvP2 : v ∉ a.processed ++ [u] := by
          intro hc
          rcases List.mem_append.mp hc with h1 | h1
          · exact hvpa h1
          · exact hprop.1.1.2 (by simpa using h1)
        have hold := inv.degEq v hvpa hvC
        have hcnt1 : remCnt m ns a.processed v = 1 := by
          have h6 := hprop.2
          rw [hold] at h6
          exact_mod_cast h6
        have hcnt := remCnt_snoc_mem hdeps hud hup
        refine ⟨hvns, hvC, hvP2, by omega, ?_⟩
        have hmono : remCnt m ns a.processed v ≤ remCnt m ns P0 v :=
          remCnt_mono hP0sub
        omega
    · rintro ⟨hns', hC', hP'', h0', hne0⟩
      have hvpa : v ∉ a.processed := fun hc =>
        hP'' (List.mem_append.mpr (Or.inl hc))
      by_cases hun : u ∈ depsNS m ns v
      · have hvn : v ∈ sortStr (revAdj m ns u) := (hnmem v).mpr hun
        have hcnt := remCnt_snoc_mem hdeps hun hup
        have hcnt1 : remCnt m ns a.processed v = 1 := by omega
        have hdeg1 : a.deg v = 1 := by
          rw [inv.degEq v hvpa hC', hcnt1]
          rfl
        refine List.mem_append.mpr (Or.inr ?_)
        refine List.mem_filter.mpr ⟨hvn, ?_⟩
        simp [hP'', hC', hdeg1]
      · have hceq : remCnt m ns (a.processed ++ [u]) v =
            remCnt m ns a.processed v := remCnt_snoc_not_mem hun
        refine List.mem_append.mpr (Or.inl ?_)
        exact (inv.nqChar v).mpr ⟨hns', hC', hvpa, by omega, hne0⟩
  · rw [hfn, inv.negF, Bool.false_or]
    refine List.any_eq_false.mpr ?_
    intro v hvn
    by_cases hvp : v ∈ a.processed ++ [u]
    · simp [hvp]
    · by_cases hvC : v ∈ C
      · simp [hvC]
      · have hvpa : v ∉ a.processed := fun hc =>
          hvp (List.mem_append.mpr (Or.inl hc))
        have hud : u ∈ depsNS m ns v := (hnmem v).mp hvn
        have hpos : remCnt m ns a.processed v ≠ 0 := remCnt_pos hud hup
        have hold := inv.degEq v hvpa hvC
        have : ¬ (a.deg v < 1) := by omega
        simp [this]

theorem rstep_inv {m : Modules} {ns : List String}
    (hkeys : (m.map Prod.fst).Nodup) (hdeps : ∀ p ∈ m, (depKeys p.2).Nodup)
    {C P0 Q0 : List String} {u : String} {T : List String} {a : RoundAcc}
    (inv : RInv m ns C P0 Q0 (u :: T) a) :
    RInv m ns C P0 Q0 T (ph1Step (revAdj m ns) C a u) := by
  have huC : u ∉ C := inv.tC u (List.mem_cons_self u T)
  have hstep : ph1Step (revAdj m ns) C a u =
      (sortStr (revAdj m ns u)).foldl (ph1Dec C)
        { a with levelNodes := a.levelNodes ++ [u],
                 processed := a.processed ++ [u] } := by
    rw [ph1Step, if_neg (by simpa using huC)]
  rw [hstep]
  have hnbrs : (sortStr (revAdj m ns u)).Nodup :=
    sortStr_nodup (revAdj_nodup hkeys u)
  obtain ⟨hfp, hfl, hfd, hfq, hfn⟩ :=
    ph1Dec_foldl_spec C (sortStr (revAdj m ns u))
      { a with levelNodes := a.levelNodes ++ [u],
               processed := a.processed ++ [u] } hnbrs
  exact rstep_inv_aux hkeys hdeps inv hfp hfl hfd hfq hfn

theorem rfold_inv {m : Modules} {ns : List String}
    (hkeys : (m.map Prod.fst).Nodup) (hdeps : ∀ p ∈ m, (depKeys p.2).Nodup)
    {C P0 Q0 : List String} :
    ∀ (todo : List String) (a : RoundAcc), RInv m ns C P0 Q0 todo a →
    RInv m ns C P0 Q0 [] (todo.foldl (ph1Step (revAdj m ns) C) a) := by
  intro todo
  induction todo with
  | nil =>
    intro a inv
    exact inv
  | cons u T ih =>
    intro a inv
    rw [List.foldl_cons]
    exact ih _ (rstep_inv hkeys hdeps inv)

theorem lvRound_init {m : Modules} {ns : List String}
    {C cyc Q : List String} {st : TopoState} (inv : LvInv m ns C cyc Q st) :
    RInv m ns C st.processed Q Q ⟨st.deg, st.processed, [], [], st.negFlag⟩ := by
  refine ⟨inv.procNodup, inv.procSub, inv.procC, rfl, inv.qNodup, inv.qSub,
    inv.qProc, inv.qC, ?_, inv.degEq, (List.append_nil _).symm,
    List.nodup_nil, ?_, inv.negF⟩
  · intro v hv
    have h0 := inv.qZero v hv
    have hd := inv.degEq v (inv.qProc v hv) (inv.qC v hv)
    rw [h0] at hd
    exact_mod_cast hd.symm
  · intro v
    constructor
    · intro hv
      simp at hv
    · rintro ⟨_, _, _, h0, hne⟩
      exact absurd h0 hne

theorem lvRound_wrap {m : Modules} {ns : List String}
    (hkeys : (m.map Prod.fst).Nodup) (hdeps : ∀ p ∈ m, (depKeys p.2).Nodup)
    {C cyc Q : List String} {st : TopoState}
    (inv : LvInv m ns C cyc Q st) :
    (Q.foldl (ph1Step (revAdj m ns) C)
        ⟨st.deg, st.processed, [], [], st.negFlag⟩).processed
      = st.processed ++ Q ∧
    (Q.foldl (ph1Step (revAdj m ns) C)
        ⟨st.deg, st.processed, [], [], st.negFlag⟩).levelNodes = Q ∧
    LvInv m ns C cyc
      (sortStr (Q.foldl (ph1Step (revAdj m ns) C)
        ⟨st.deg, st.processed, [], [], st.negFlag⟩).nextQueue)
      ⟨(Q.foldl (ph1Step (revAdj m ns) C)
          ⟨st.deg, st.processed, [], [], st.negFlag⟩).deg,
       (Q.foldl (ph1Step (revAdj m ns) C)
          ⟨st.deg, st.processed, [], [], st.negFlag⟩).processed,
       st.counter + 1,
       st.levels ++ [(st.counter, "", Q)],
       (Q.foldl (ph1Step (revAdj m ns) C)
          ⟨st.deg, st.processed, [], [], st.negFlag⟩).negFlag⟩ := by
  have RF := rfold_inv hkeys hdeps Q _ (lvRound_init inv)
  have hlvl : (Q.foldl (ph1Step (revAdj m ns) C)
      ⟨st.deg, st.processed, [], [], st.negFlag⟩).levelNodes = Q := by
    have h := RF.split
    simpa using h
  have hproc : (Q.foldl (ph1Step (revAdj m ns) C)
      ⟨st.deg, st.processed, [], [], st.negFlag⟩).processed
      = st.processed ++ Q := by
    rw [RF.procLvl, hlvl]
  refine ⟨hproc, hlvl, ?_⟩
  refine ⟨RF.procNodup, RF.procSub, RF.procC, sortStr_nodup RF.nqNodup,
    ?_, ?_, ?_, RF.degEq, ?_, ?_, RF.negF, ?_, ?_⟩
  · intro x hx
    exact ((RF.nqChar x).mp (mem_sortStr.mp hx)).1
  · intro x hx
    exact ((RF.nqChar x).mp (mem_sortStr.mp hx)).2.2.1
  · intro x hx
    exact ((RF.nqChar x).mp (mem_sortStr.mp hx)).2.1
  · intro v hv
    rcases (RF.nqChar v).mp (mem_sortStr.mp hv) with ⟨_, hC', hP', h0, _⟩
    have hd := RF.degEq v hP' hC'
    rw [h0] at hd
    simpa using hd
  · intro v hvns hvC hvP h0
    rw [mem_sortStr]
    have hne : remCnt m ns st.processed v ≠ 0 := by
      intro hP0z
      have hvP0 : v ∉ st.processed := by
        intro hc
        exact hvP (by rw [hproc]; exact List.mem_append.mpr (Or.inl hc))
      have hvQ : v ∈ Q := inv.zeroIn v hvns hvC hvP0 hP0z
      exact hvP (by rw [hproc]; exact List.mem_append.mpr (Or.inr hvQ))
    exact (RF.nqChar v).mpr ⟨hvns, hvC, hvP, h0, hne⟩
  · rw [hproc]
    refine LevelsGood.snoc st.processed st.levels st.counter "" Q inv.lvGood ?_
    intro x hx _ d hd
    have hxP : x ∉ st.processed := inv.qProc x hx
    have hxC : x ∉ C := inv.qC x hx
    have h0 := inv.qZero x hx
    have hdq := inv.degEq x hxP hxC
    rw [h0] at hdq
    have h0' : remCnt m ns st.processed x = 0 := by exact_mod_cast hdq.symm
    exact remCnt_zero_deps h0' d hd
  · rw [List.map_append, inv.levCtr, List.range_succ]
    simp

theorem ph1Run_nil {radj : String → List String} {cyc : List String}
    {fuel : Nat} {st : TopoState} : ph1Run radj cyc (fuel+1) [] st = st := by
  rw [ph1Run]
  rfl

theorem ph1Run_cons {radj : String → List String} {cyc : List String}
    {fuel : Nat} {Q : List String} {st : TopoState} (h : Q.isEmpty = false) :
    ph1Run radj cyc (fuel+1) Q st =
    ph1Run radj cyc fuel
      (sortStr (Q.foldl (ph1Step radj cyc)
        ⟨st.deg, st.processed, [], [], st.negFlag⟩).nextQueue)
      ⟨(Q.foldl (ph1Step radj cyc)
          ⟨st.deg, st.processed, [], [], st.negFlag⟩).deg,
       (Q.foldl (ph1Step radj cyc)
          ⟨st.deg, st.processed, [], [], st.negFlag⟩).processed,
       st.counter + 1,
       st.levels ++ (if (Q.foldl (ph1Step radj cyc)
            ⟨st.deg, st.processed, [], [], st.negFlag⟩).levelNodes.isEmpty
          then []
          else [(st.counter, "", (Q.foldl (ph1Step radj cyc)
            ⟨st.deg, st.processed, [], [], st.negFlag⟩).levelNodes)]),
       (Q.foldl (ph1Step radj cyc)
          ⟨st.deg, st.processed, [], [], st.negFlag⟩).negFlag⟩ := by
  rw [ph1Run, h]
  rfl

theorem ph1Run_spec {m : Modules} {ns : List String}
    (hkeys : (m.map Prod.fst).Nodup) (hdeps : ∀ p ∈ m, (depKeys p.2).Nodup)
    (hns : ns.Nodup) {C cyc : List String} :
    ∀ (fuel : Nat) (Q : List String) (st : TopoState),
    LvInv m ns C cyc Q st →
    ns.length + 1 ≤ fuel + st.processed.length →
    LvInv m ns C cyc [] (ph1Run (revAdj m ns) C fuel Q st) ∧
    (∀ x ∈ st.processed, x ∈ (ph1Run (revAdj m ns) C fuel Q st).processed) := by
  intro fuel
  induction fuel with
  | zero =>
    intro Q st inv hle
    exfalso
    have hsub : st.processed.toFinset ⊆ ns.toFinset := fun y hy =>
      List.mem_toFinset.mpr (inv.procSub y (List.mem_toFinset.mp hy))
    have hcard : st.processed.length ≤ ns.length := by
      rw [← List.toFinset_card_of_nodup inv.procNodup,
          ← List.toFinset_card_of_nodup hns]
      exact Finset.card_le_card hsub
    omega
  | succ k ih =>
    intro Q st inv hle
    by_cases hq : Q.isEmpty
    · have hqnil : Q = [] := by
        cases Q with
        | nil => rfl
        | cons a t => simp at hq
      subst hqnil
      rw [ph1Run_nil]
      exact ⟨inv, fun x hx => hx⟩
    · have hq' : Q.isEmpty = false := by
        cases hval : Q.isEmpty
        · rfl
        · exact absurd hval hq
      rw [ph1Run_cons hq']
      obtain ⟨hproc, hlvl, hinv'⟩ := lvRound_wrap hkeys hdeps inv
      have hifl : (if (Q.foldl (ph1Step (revAdj m ns) C)
            ⟨st.deg, st.processed, [], [], st.negFlag⟩).levelNodes.isEmpty
          then ([] : List (Nat × String × List String))
          else [(st.counter, "", (Q.foldl (ph1Step (revAdj m ns) C)
            ⟨st.deg, st.processed, [], [], st.negFlag⟩).levelNodes)]) =
          [(st.counter, "", Q)] := by
        rw [hlvl, hq']
        rfl
      rw [hifl]
      have hlen : (Q.foldl (ph1Step (revAdj m ns) C)
          ⟨st.deg, st.processed, [], [], st.negFlag⟩).processed.length =
          st.processed.length + Q.length := by
        rw [hproc]
        simp
      have hQpos : 1 ≤ Q.length := by
        cases Q with
        | nil => simp at hq'
        | cons a t => simp
      obtain ⟨hres, hmono⟩ := ih _ _ hinv' (by
        show ns.length + 1 ≤ k + (Q.foldl (ph1Step (revAdj m ns) C)
          ⟨st.deg, st.processed, [], [], st.negFlag⟩).processed.length
        omega)
      refine ⟨hres, ?_⟩
      intro x hx
      refine hmono x ?_
      show x ∈ (Q.foldl (ph1Step (revAdj m ns) C)
        ⟨st.deg, st.processed, [], [], st.negFlag⟩).processed
      rw [hproc]
      exact List.mem_append.mpr (Or.inl hx)

theorem ph1Dec_nil_eq_ph3Dec : ph1Dec [] = ph3Dec := by
  funext b v
  rw [ph1Dec, ph3Dec]
  cases h : b.processed.contains v <;> simp [h]

theorem ph13_foldl_eq {m : Modules} {ns : List String}
    (hkeys : (m.map Prod.fst).Nodup) :
    ∀ (Q : List String) (a : RoundAcc), Q.Nodup →
    (∀ u ∈ Q, u ∉ a.processed) →
    Q.foldl (ph3Step (revAdj m ns)) a = Q.foldl (ph1Step (revAdj m ns) []) a := by
  intro Q
  induction Q with
  | nil =>
    intro a _ _
    rfl
  | cons u T ih =>
    intro a hnd hproc
    have hnd' := List.nodup_cons.mp hnd
    rw [List.foldl_cons, List.foldl_cons]
    have hup : u ∉ a.processed := hproc u (List.mem_cons_self u T)
    have h3 : ph3Step (revAdj m ns) a u =
        (sortStr (revAdj m ns u)).foldl ph3Dec
          { a with levelNodes := a.levelNodes ++ [u],
                   processed := a.processed ++ [u] } := by
      rw [ph3Step, if_neg (by simpa using hup)]
    have h1 : ph1Step (revAdj m ns) [] a u =
        (sortStr (revAdj m ns u)).foldl (ph1Dec [])
          { a with levelNodes := a.levelNodes ++ [u],
                   processed := a.processed ++ [u] } := by
      rw [ph1Step, if_neg (by simp)]
    rw [h3, h1, ph1Dec_nil_eq_ph3Dec]
    obtain ⟨hXp, _, _, _, _⟩ := ph3Dec_foldl_spec (sortStr (revAdj m ns u))
      { a with levelNodes := a.levelNodes ++ [u],
               processed := a.processed ++ [u] }
      (sortStr_nodup (revAdj_nodup hkeys u))
    refine ih _ hnd'.2 ?_
    intro v hv
    rw [hXp]
    intro hc
    rcases List.mem_append.mp hc with h | h
    · exact hproc v (List.mem_cons_of_mem u hv) h
    · have hvu : v = u := by simpa using h
      exact hnd'.1 (hvu ▸ hv)

theorem ph3Run_nil {radj : String → List String}
    {fuel : Nat} {st : TopoState} : ph3Run radj (fuel+1) [] st = st := by
  rw [ph3Run]
  rfl

theorem ph3Run_cons {radj : String → List String}
    {fuel : Nat} {Q : List String} {st : TopoState} (h : Q.isEmpty = false) :
    ph3Run radj (fuel+1) Q st =
    ph3Run radj fuel
      (sortStr (Q.foldl (ph3Step radj)
        ⟨st.deg, st.processed, [], [], st.negFlag⟩).nextQueue)
      ⟨(Q.foldl (ph3Step radj)
          ⟨st.deg, st.processed, [], [], st.negFlag⟩).deg,
       (Q.foldl (ph3Step radj)
          ⟨st.deg, st.processed, [], [], st.negFlag⟩).processed,
       st.counter + 1,
       st.levels ++ (if (Q.foldl (ph3Step radj)
            ⟨st.deg, st.processed, [], [], st.negFlag⟩).levelNodes.isEmpty
          then []
          else [(st.counter, "", (Q.foldl (ph3Step radj)
            ⟨st.deg, st.processed, [], [], st.negFlag⟩).levelNodes)]),
       (Q.foldl (ph3Step radj)
          ⟨st.deg, st.processed, [], [], st.negFlag⟩).negFlag⟩ := by
  rw [ph3Run, h]
  rfl

theorem ph3Run_spec {m : Modules} {ns : List String}
    (hkeys : (m.map Prod.fst).Nodup) (hdeps : ∀ p ∈ m, (depKeys p.2).Nodup)
    (hns : ns.Nodup) {cyc : List String} :
    ∀ (fuel : Nat) (Q : List String) (st : TopoState),
    LvInv m ns [] cyc Q st →
    ns.length + 1 ≤ fuel + st.processed.length →
    LvInv m ns [] cyc [] (ph3Run (revAdj m ns) fuel Q st) ∧
    (∀ x ∈ st.processed, x ∈ (ph3Run (revAdj m ns) fuel Q st).processed) := by
  intro fuel
  induction fuel with
  | zero =>
    intro Q st inv hle
    exfalso
    have hsub : st.processed.toFinset ⊆ ns.toFinset := fun y hy =>
      List.mem_toFinset.mpr (inv.procSub y (List.mem_toFinset.mp hy))
    have hcard : st.processed.length ≤ ns.length := by
      rw [← List.toFinset_card_of_nodup inv.procNodup,
          ← List.toFinset_card_of_nodup hns]
      exact Finset.card_le_card hsub
    omega
  | succ k ih =>
    intro Q st inv hle
    by_cases hq : Q.isEmpty
    · have hqnil : Q = [] := by
        cases Q with
        | nil => rfl
        | cons a t => simp at hq
      subst hqnil
      rw [ph3Run_nil]
      exact ⟨inv, fun x hx => hx⟩
    · have hq' : Q.isEmpty = false := by
        cases hval : Q.isEmpty
        · rfl
        · exact absurd hval hq
      rw [ph3Run_cons hq']
      have hfold : Q.foldl (ph3Step (revAdj m ns))
          ⟨st.deg, st.processed, [], [], st.negFlag⟩ =
          Q.foldl (ph1Step (revAdj m ns) [])
          ⟨st.deg, st.processed, [], [], st.negFlag⟩ :=
        ph13_foldl_eq hkeys Q _ inv.qNodup inv.qProc
      rw [hfold]
      obtain ⟨hproc, hlvl, hinv'⟩ := lvRound_wrap hkeys hdeps inv
      have hifl : (if (Q.foldl (ph1Step (revAdj m ns) [])
            ⟨st.deg, st.processed, [], [], st.negFlag⟩).levelNodes.isEmpty
          then ([] : List (Nat × String × List String))
          else [(st.counter, "", (Q.foldl (ph1Step (revAdj m ns) [])
            ⟨st.deg, st.processed, [], [], st.negFlag⟩).levelNodes)]) =
          [(st.counter, "", Q)] := by
        rw [hlvl, hq']
        rfl
      rw [hifl]
      have hlen : (Q.foldl (ph1Step (revAdj m ns) [])
          ⟨st.deg, st.processed, [], [], st.negFlag⟩).processed.length =
          st.processed.length + Q.length := by
        rw [hproc]
        simp
      have hQpos : 1 ≤ Q.length := by
        cases Q with
        | nil => simp at hq'
        | cons a t => simp
      obtain ⟨hres, hmono⟩ := ih _ _ hinv' (by
        show ns.length + 1 ≤ k + (Q.foldl (ph1Step (revAdj m ns) [])
          ⟨st.deg, st.processed, [], [], st.negFlag⟩).processed.length
        omega)
      refine ⟨hres, ?_⟩
      intro x hx
      refine hmono x ?_
      show x ∈ (Q.foldl (ph1Step (revAdj m ns) [])
        ⟨st.deg, st.processed, [], [], st.negFlag⟩).processed
      rw [hproc]
      exact List.mem_append.mpr (Or.inl hx)

/- ---------------------------------------------------------------------
   Staged form of the three-phase leveling pass
   --------------------------------------------------------------------- -/

/-- Initial queue of the pre-cycle phase. -/
def lvQ0 (m : Modules) (ns cyc : List String) : List String :=
  sortStr (ns.filter fun v => inDeg m ns v == 0 && !cyc.contains v)

/-- State after the pre-cycle phase. -/
def lvSt1 (m : Modules) (ns cyc : List String) : TopoState :=
  ph1Run (fun u => revAdj m ns u) cyc (ns.length + 1) (lvQ0 m ns cyc)
    ⟨fun v => (inDeg m ns v : Int), [], 0, [], false⟩

/-- State after the cycle nodes are marked processed and their level is
emitted. -/
def lvSt2 (m : Modules) (ns cyc : List String) : TopoState :=
  ⟨(lvSt1 m ns cyc).deg, (lvSt1 m ns cyc).processed ++ sortStr cyc,
   (lvSt1 m ns cyc).counter,
   (lvSt1 m ns cyc).levels ++
     [((lvSt1 m ns cyc).counter, " (Cycles)", sortStr cyc)],
   (lvSt1 m ns cyc).negFlag⟩

/-- State and queue after the cycle-neighbor decrements. -/
def lvPrep (m : Modules) (ns cyc : List String) : TopoState × List String :=
  (sortStr cyc).foldl (cycleQueueStep (fun u => revAdj m ns u))
    (lvSt2 m ns cyc, [])

theorem topoLevelsWith_eq (m : Modules) (ns cyc : List String) :
    topoLevelsWith m ns cyc =
    if (sortStr cyc).isEmpty then
      { lvSt1 m ns cyc with
          processed := (lvSt1 m ns cyc).processed ++ sortStr cyc }
    else
      ph3Run (fun u => revAdj m ns u) (ns.length + 1)
        (sortStr (lvPrep m ns cyc).2)
        { (lvPrep m ns cyc).1 with
            counter := (lvPrep m ns cyc).1.counter + 1 } := rfl

theorem remCnt_ne_zero_exists {m : Modules} {ns P : List String} {v : String}
    (h : remCnt m ns P v ≠ 0) : ∃ d, d ∈ depsNS m ns v ∧ d ∉ P := by
  rw [remCnt] at h
  have hne : (depsNS m ns v).filter (fun d => decide (d ∉ P)) ≠ [] := by
    intro hc
    rw [hc] at h
    simp at h
  rcases List.exists_mem_of_ne_nil _ hne with ⟨d, hd⟩
  have hmem := List.mem_filter.mp hd
  exact ⟨d, hmem.1, by simpa using hmem.2⟩

theorem lvInit_inv (m : Modules) (ns : List String) (hns : ns.Nodup)
    (cyc : List String) :
    LvInv m ns cyc cyc (lvQ0 m ns cyc)
      ⟨fun v => (inDeg m ns v : Int), [], 0, [], false⟩ := by
  refine ⟨List.nodup_nil, by simp, by simp, sortStr_nodup (hns.filter _),
    ?_, by simp, ?_, ?_, ?_, ?_, rfl, LevelsGood.nil, by simp⟩
  · intro u hu
    exact (List.mem_filter.mp (mem_sortStr.mp hu)).1
  · intro u hu
    have hc := (List.mem_filter.mp (mem_sortStr.mp hu)).2
    have hc' : inDeg m ns u = 0 ∧ u ∉ cyc := by simpa using hc
    exact hc'.2
  · intro v _ _
    show ((inDeg m ns v : Int)) = (remCnt m ns [] v : Int)
    rw [remCnt_nil, inDeg_eq_depsNS]
  · intro v hv
    have hc := (List.mem_filter.mp (mem_sortStr.mp hv)).2
    have hc' : inDeg m ns v = 0 ∧ v ∉ cyc := by simpa using hc
    show ((inDeg m ns v : Int)) = 0
    simp [hc'.1]
  · intro v hv hvC _ h0
    rw [lvQ0, mem_sortStr]
    refine List.mem_filter.mpr ⟨hv, ?_⟩
    have h0' : inDeg m ns v = 0 := by
      rw [remCnt_nil, ← inDeg_eq_depsNS] at h0
      exact h0
    simp [h0', hvC]

/- ---------------------------------------------------------------------
   The cycle-neighbor decrement pass
   --------------------------------------------------------------------- -/

theorem cycPrep_fold {m : Modules} {ns : List String}
    (hkeys : (m.map Prod.fst).Nodup) (hdeps : ∀ p ∈ m, (depKeys p.2).Nodup)
    {P1 cl : List String} (hclnd : cl.Nodup) (hclP1 : ∀ c ∈ cl, c ∉ P1) :
    ∀ (todoC : List String) (doneC : List String) (b : TopoState × List String),
    cl = doneC ++ todoC →
    b.1.processed = P1 ++ cl →
    (∀ v, v ∉ P1 ++ cl → b.1.deg v = (remCnt m ns (P1 ++ doneC) v : Int)) →
    (∀ v, v ∈ b.2 ↔ (v ∉ P1 ++ cl ∧ remCnt m ns (P1 ++ doneC) v = 0 ∧
      remCnt m ns P1 v ≠ 0)) →
    b.2.Nodup →
    b.1.negFlag = false →
    (todoC.foldl (cycleQueueStep (revAdj m ns)) b).1.processed = P1 ++ cl ∧
    (todoC.foldl (cycleQueueStep (revAdj m ns)) b).1.counter = b.1.counter ∧
    (todoC.foldl (cycleQueueStep (revAdj m ns)) b).1.levels = b.1.levels ∧
    (∀ v, v ∉ P1 ++ cl →
      (todoC.foldl (cycleQueueStep (revAdj m ns)) b).1.deg v =
      (remCnt m ns (P1 ++ cl) v : Int)) ∧
    (∀ v, v ∈ (todoC.foldl (cycleQueueStep (revAdj m ns)) b).2 ↔
      (v ∉ P1 ++ cl ∧ remCnt m ns (P1 ++ cl) v = 0 ∧
       remCnt m ns P1 v ≠ 0)) ∧
    (todoC.foldl (cycleQueueStep (revAdj m ns)) b).2.Nodup ∧
    (todoC.foldl (cycleQueueStep (revAdj m ns)) b).1.negFlag = false := by
  intro todoC
  induction todoC with
  | nil =>
    intro doneC b hsplit hb1 hdeg hq hnd hneg
    rw [List.append_nil] at hsplit
    subst hsplit
    exact ⟨hb1, rfl, rfl, hdeg, hq, hnd, hneg⟩
  | cons c rest ih =>
    intro doneC b hsplit hb1 hdeg hq hnd hneg
    rw [List.foldl_cons]
    have hccl : c ∈ cl := by
      rw [hsplit]
      exact List.mem_append.mpr (Or.inr (List.mem_cons_self c rest))
    have hcP1 : c ∉ P1 := hclP1 c hccl
    have hclnd' : (doneC ++ c :: rest).Nodup := hsplit ▸ hclnd
    have hcdone : c ∉ doneC := by
      rcases List.nodup_append.mp hclnd' with ⟨_, _, hdisj⟩
      intro hc
      exact hdisj hc (List.mem_cons_self c rest)
    have hcPd : c ∉ P1 ++ doneC := by
      intro hc
      rcases List.mem_append.mp hc with h | h
      · exact hcP1 h
      · exact hcdone h
    have hnmem : ∀ x : String,
        x ∈ sortStr (revAdj m ns c) ↔ c ∈ depsNS m ns x :=
      fun x => by rw [mem_sortStr, mem_revAdj hkeys]
    have hnbrs : (sortStr (revAdj m ns c)).Nodup :=
      sortStr_nodup (revAdj_nodup hkeys c)
    have hstep : cycleQueueStep (revAdj m ns) b c =
        (sortStr (revAdj m ns c)).foldl cycDec b := rfl
    have hqz : ∀ x ∈ sortStr (revAdj m ns c), x ∈ b.2 → b.1.deg x = 0 := by
      intro x _ hxq
      rcases (hq x).mp hxq with ⟨hxP, hx0, _⟩
      rw [hdeg x hxP, hx0]
      rfl
    obtain ⟨hsp, hsc, hsl, hsd, hsn, hsq⟩ :=
      cycDec_foldl_spec (sortStr (revAdj m ns c)) b hnbrs hqz
    have hdv : ∀ x, (cycleQueueStep (revAdj m ns) b c).1.deg x =
        if x ∈ sortStr (revAdj m ns c) ∧ x ∉ b.1.processed
        then b.1.deg x - 1 else b.1.deg x := by
      intro x
      rw [hstep, hsd]
    have hassoc : P1 ++ (doneC ++ [c]) = (P1 ++ doneC) ++ [c] :=
      (List.append_assoc P1 doneC [c]).symm
    have hproc' : (cycleQueueStep (revAdj m ns) b c).1.processed = P1 ++ cl := by
      rw [hstep, hsp, hb1]
    have hdeg' : ∀ v, v ∉ P1 ++ cl →
        (cycleQueueStep (revAdj m ns) b c).1.deg v =
        (remCnt m ns (P1 ++ (doneC ++ [c])) v : Int) := by
      intro v hvP
      rw [hdv v, hassoc]
      have hvproc : v ∉ b.1.processed := by
        rw [hb1]
        exact hvP
      by_cases hvn : v ∈ sortStr (revAdj m ns c)
      · rw [if_pos ⟨hvn, hvproc⟩]
        have hud : c ∈ depsNS m ns v := (hnmem v).mp hvn
        have hcnt := remCnt_snoc_mem hdeps hud hcPd
        have hold := hdeg v hvP
        omega
      · rw [if_neg (fun hc => hvn hc.1)]
        have hud : c ∉ depsNS m ns v := fun hud => hvn ((hnmem v).mpr hud)
        have hceq : remCnt m ns ((P1 ++ doneC) ++ [c]) v =
            remCnt m ns (P1 ++ doneC) v := remCnt_snoc_not_mem hud
        rw [hceq]
        exact hdeg v hvP
    have hq' : ∀ v, v ∈ (cycleQueueStep (revAdj m ns) b c).2 ↔
        (v ∉ P1 ++ cl ∧ remCnt m ns (P1 ++ (doneC ++ [c])) v = 0 ∧
         remCnt m ns P1 v ≠ 0) := by
      intro v
      rw [hstep, hsq, hassoc]
      constructor
      · intro hv
        rcases List.mem_append.mp hv with h | h
        · rcases (hq v).mp h with ⟨hvP, h0, hne0⟩
          refine ⟨hvP, ?_, hne0⟩
          have hmono : remCnt m ns ((P1 ++ doneC) ++ [c]) v ≤
              remCnt m ns (P1 ++ doneC) v :=
            remCnt_mono (fun x hx => List.mem_append.mpr (Or.inl hx))
          omega
        · have hvn : v ∈ sortStr (revAdj m ns c) := (List.mem_filter.mp h).1
          have hpred := (List.mem_filter.mp h).2
          have hprop : v ∉ b.1.processed ∧ b.1.deg v = 1 := by
            simpa using hpred
          have hvP : v ∉ P1 ++ cl := by
            rw [← hb1]
            exact hprop.1
          have hud : c ∈ depsNS m ns v := (hnmem v).mp hvn
          have hcnt := remCnt_snoc_mem hdeps hud hcPd
          have hold := hdeg v hvP
          have hcnt1 : remCnt m ns (P1 ++ doneC) v = 1 := by
            rw [hold] at hprop
            exact_mod_cast hprop.2
          refine ⟨hvP, by omega, ?_⟩
          have hmono : remCnt m ns (P1 ++ doneC) v ≤ remCnt m ns P1 v :=
            remCnt_mono (fun x hx => List.mem_append.mpr (Or.inl hx))
          omega
      · rintro ⟨hvP, h0', hne0⟩
        have hvproc : v ∉ b.1.processed := by
          rw [hb1]
          exact hvP
        by_cases hun : c ∈ depsNS m ns v
        · have hvn : v ∈ sortStr (revAdj m ns c) := (hnmem v).mpr hun
          have hcnt := remCnt_snoc_mem hdeps hun hcPd
          have hcnt1 : remCnt m ns (P1 ++ doneC) v = 1 := by omega
          have hdeg1 : b.1.deg v = 1 := by
            rw [hdeg v hvP, hcnt1]
            rfl
          refine List.mem_append.mpr (Or.inr ?_)
          refine List.mem_filter.mpr ⟨hvn, ?_⟩
          simp [hvproc, hdeg1]
        · have hceq : remCnt m ns ((P1 ++ doneC) ++ [c]) v =
              remCnt m ns (P1 ++ doneC) v := remCnt_snoc_not_mem hun
          refine List.mem_append.mpr (Or.inl ?_)
          exact (hq v).mpr ⟨hvP, by omega, hne0⟩
    have hnd' : (cycleQueueStep (revAdj m ns) b c).2.Nodup := by
      rw [hstep, hsq]
      rw [List.nodup_append]
      refine ⟨hnd, hnbrs.filter _, ?_⟩
      intro x hx hx2
      rcases (hq x).mp hx with ⟨hxP, hx0, _⟩
      have h2 := (List.mem_filter.mp hx2).2
      have h3 : x ∉ b.1.processed ∧ b.1.deg x = 1 := by
        simpa using h2
      have h4 := hdeg x hxP
      have h5 := h3.2
      omega
    have hneg' : (cycleQueueStep (revAdj m ns) b c).1.negFlag = false := by
      rw [hstep, hsn, hneg, Bool.false_or]
      refine List.any_eq_false.mpr ?_
      intro v hvn
      by_cases hvp : v ∈ b.1.processed
      · simp [hvp]
      · have hvP : v ∉ P1 ++ cl := by
          rw [← hb1]
          exact hvp
        have hud : c ∈ depsNS m ns v := (hnmem v).mp hvn
        have hpos : remCnt m ns (P1 ++ doneC) v ≠ 0 := remCnt_pos hud hcPd
        have hold := hdeg v hvP
        have hlt : ¬ (b.1.deg v < 1) := by omega
        simp [hlt]
    have hsplit' : cl = (doneC ++ [c]) ++ rest := by
      rw [hsplit, List.append_assoc, List.singleton_append]
    obtain ⟨ih1, ih2, ih3, ih4, ih5, ih6, ih7⟩ :=
      ih (doneC ++ [c]) (cycleQueueStep (revAdj m ns) b c)
        hsplit' hproc' hdeg' hq' hnd' hneg'
    refine ⟨ih1, ?_, ?_, ih4, ih5, ih6, ih7⟩
    · rw [ih2, hstep, hsc]
    · rw [ih3, hstep, hsl]

theorem topoLevelsWith_main (m : Modules) (ns : List String)
    (hkeys : (m.map Prod.fst).Nodup) (hdeps : ∀ p ∈ m, (depKeys p.2).Nodup)
    (hns : ns.Nodup) (cyc : List String) (hcnd : cyc.Nodup)
    (hcsub : ∀ c ∈ cyc, c ∈ ns) :
    (topoLevelsWith m ns cyc).negFlag = false ∧
    (topoLevelsWith m ns cyc).processed.Nodup ∧
    (∀ u ∈ (topoLevelsWith m ns cyc).processed, u ∈ ns) ∧
    LevelsGood m ns cyc (topoLevelsWith m ns cyc).processed
      (topoLevelsWith m ns cyc).levels ∧
    (topoLevelsWith m ns cyc).levels.map (fun lv => lv.1) =
      List.range (topoLevelsWith m ns cyc).counter ∧
    (∀ c ∈ cyc, c ∈ (topoLevelsWith m ns cyc).processed) ∧
    (∀ v ∈ ns, v ∉ (topoLevelsWith m ns cyc).processed →
      ∃ d, d ∈ depsNS m ns v ∧ d ∉ (topoLevelsWith m ns cyc).processed) := by
  have hinit : LvInv m ns cyc cyc (lvQ0 m ns cyc)
      ⟨fun v => (inDeg m ns v : Int), [], 0, [], false⟩ :=
    lvInit_inv m ns hns cyc
  have h1 := ph1Run_spec hkeys hdeps hns (ns.length + 1) (lvQ0 m ns cyc)
    ⟨fun v => (inDeg m ns v : Int), [], 0, [], false⟩ hinit (by simp)
  have hinv1 : LvInv m ns cyc cyc [] (lvSt1 m ns cyc) := h1.1
  have hclnd : (sortStr cyc).Nodup := sortStr_nodup hcnd
  have hclP1 : ∀ c ∈ sortStr cyc, c ∉ (lvSt1 m ns cyc).processed :=
    fun c hc hcp => hinv1.procC c hcp (mem_sortStr.mp hc)
  rw [topoLevelsWith_eq]
  by_cases hcl : (sortStr cyc).isEmpty
  · rw [if_pos hcl]
    have hclnil : sortStr cyc = [] := by
      cases hsc : sortStr cyc with
      | nil => rfl
      | cons a t =>
        rw [hsc] at hcl
        simp at hcl
    have hcycnil : ∀ c : String, c ∉ cyc := by
      intro c hc
      have : c ∈ sortStr cyc := mem_sortStr.mpr hc
      rw [hclnil] at this
      simp at this
    have hX : ({ lvSt1 m ns cyc with
        processed := (lvSt1 m ns cyc).processed ++ sortStr cyc }) =
        lvSt1 m ns cyc := by
      rw [hclnil, List.append_nil]
    rw [hX]
    refine ⟨hinv1.negF, hinv1.procNodup, hinv1.procSub, hinv1.lvGood,
      hinv1.levCtr, ?_, ?_⟩
    · intro c hc
      exact absurd hc (hcycnil c)
    · intro v hv hvp
      have hne : remCnt m ns (lvSt1 m ns cyc).processed v ≠ 0 := by
        intro h0
        have := hinv1.zeroIn v hv (hcycnil v) hvp h0
        simp at this
      exact remCnt_ne_zero_exists hne
  · rw [if_neg hcl]
    have hb1 : (lvSt2 m ns cyc, ([] : List String)).1.processed =
        (lvSt1 m ns cyc).processed ++ sortStr cyc := rfl
    have hdeg0 : ∀ v, v ∉ (lvSt1 m ns cyc).processed ++ sortStr cyc →
        (lvSt2 m ns cyc, ([] : List String)).1.deg v =
        (remCnt m ns ((lvSt1 m ns cyc).processed ++ []) v : Int) := by
      intro v hv
      have hvP1 : v ∉ (lvSt1 m ns cyc).processed := fun hc =>
        hv (List.mem_append.mpr (Or.inl hc))
      have hvcyc : v ∉ cyc := fun hc =>
        hv (List.mem_append.mpr (Or.inr (mem_sortStr.mpr hc)))
      show (lvSt1 m ns cyc).deg v = _
      rw [List.append_nil]
      exact hinv1.degEq v hvP1 hvcyc
    have hq0 : ∀ v, v ∈ (lvSt2 m ns cyc, ([] : List String)).2 ↔
        (v ∉ (lvSt1 m ns cyc).processed ++ sortStr cyc ∧
         remCnt m ns ((lvSt1 m ns cyc).processed ++ []) v = 0 ∧
         remCnt m ns (lvSt1 m ns cyc).processed v ≠ 0) := by
      intro v
      rw [List.append_nil]
      constructor
      · intro hv
        simp at hv
      · rintro ⟨_, h0, hne⟩
        exact absurd h0 hne
    have hneg0 : (lvSt2 m ns cyc, ([] : List String)).1.negFlag = false :=
      hinv1.negF
    obtain ⟨hp2, hc2, hl2, hd2, hq2, hnd2, hng2⟩ :=
      cycPrep_fold hkeys hdeps hclnd hclP1 (sortStr cyc) []
        (lvSt2 m ns cyc, []) rfl hb1 hdeg0 hq0 List.nodup_nil hneg0
    have hprocF : (lvPrep m ns cyc).1.processed =
        (lvSt1 m ns cyc).processed ++ sortStr cyc := hp2
    have hdegF : ∀ v, v ∉ (lvSt1 m ns cyc).processed ++ sortStr cyc →
        (lvPrep m ns cyc).1.deg v =
        (remCnt m ns ((lvSt1 m ns cyc).processed ++ sortStr cyc) v : Int) := hd2
    have hqF : ∀ v, v ∈ (lvPrep m ns cyc).2 ↔
        (v ∉ (lvSt1 m ns cyc).processed ++ sortStr cyc ∧
         remCnt m ns ((lvSt1 m ns cyc).processed ++ sortStr cyc) v = 0 ∧
         remCnt m ns (lvSt1 m ns cyc).processed v ≠ 0) := hq2
    have hndF : (lvPrep m ns cyc).2.Nodup := hnd2
    have hngF : (lvPrep m ns cyc).1.negFlag = false := hng2
    have hcF : (lvPrep m ns cyc).1.counter = (lvSt1 m ns cyc).counter := hc2
    have hlF : (lvPrep m ns cyc).1.levels =
        (lvSt1 m ns cyc).levels ++
          [((lvSt1 m ns cyc).counter, " (Cycles)", sortStr cyc)] := hl2
    have hPnodup : ((lvSt1 m ns cyc).processed ++ sortStr cyc).Nodup := by
      rw [List.nodup_append]
      exact ⟨hinv1.procNodup, hclnd, fun a haP hacl => hclP1 a hacl haP⟩
    have hinv3 : LvInv m ns [] cyc (sortStr (lvPrep m ns cyc).2)
        ⟨(lvPrep m ns cyc).1.deg, (lvPrep m ns cyc).1.processed,
         (lvPrep m ns cyc).1.counter + 1, (lvPrep m ns cyc).1.levels,
         (lvPrep m ns cyc).1.negFlag⟩ := by
      refine ⟨?_, ?_, ?_, sortStr_nodup hndF, ?_, ?_, ?_, ?_, ?_, ?_, hngF,
        ?_, ?_⟩
      · show (lvPrep m ns cyc).1.processed.Nodup
        rw [hprocF]
        exact hPnodup
      · intro u hu
        have hu2 : u ∈ (lvPrep m ns cyc).1.processed := hu
        rw [hprocF] at hu2
        rcases List.mem_append.mp hu2 with h | h
        · exact hinv1.procSub u h
        · exact hcsub u (mem_sortStr.mp h)
      · intro u _
        simp
      · intro x hx
        have := (hqF x).mp (mem_sortStr.mp hx)
        exact mem_ns_of_remCnt_ne this.2.2
      · intro x hx
        show x ∉ (lvPrep m ns cyc).1.processed
        rw [hprocF]
        exact ((hqF x).mp (mem_sortStr.mp hx)).1
      · intro x _
        simp
      · intro v hvp hvC
        have hvp2 : v ∉ (lvPrep m ns cyc).1.processed := hvp
        rw [hprocF] at hvp2
        show (lvPrep m ns cyc).1.deg v =
          (remCnt m ns (lvPrep m ns cyc).1.processed v : Int)
        rw [hprocF]
        exact hdegF v hvp2
      · intro v hv
        rcases (hqF v).mp (mem_sortStr.mp hv) with ⟨hvP, h0, _⟩
        show (lvPrep m ns cyc).1.deg v = 0
        rw [hdegF v hvP, h0]
        rfl
      · intro v hvns _ hvP h0
        have hvP2 : v ∉ (lvPrep m ns cyc).1.processed := hvP
        have h02 : remCnt m ns (lvPrep m ns cyc).1.processed v = 0 := h0
        rw [hprocF] at hvP2 h02
        rw [mem_sortStr]
        refine (hqF v).mpr ⟨hvP2, h02, ?_⟩
        intro hP1z
        have hvP1 : v ∉ (lvSt1 m ns cyc).processed := fun hc =>
          hvP2 (List.mem_append.mpr (Or.inl hc))
        have hvcyc : v ∉ cyc := fun hc =>
          hvP2 (List.mem_append.mpr (Or.inr (mem_sortStr.mpr hc)))
        have := hinv1.zeroIn v hvns hvcyc hvP1 hP1z
        simp at this
      · show LevelsGood m ns cyc (lvPrep m ns cyc).1.processed
          (lvPrep m ns cyc).1.levels
        rw [hprocF, hlF]
        exact LevelsGood.snoc _ _ _ _ _ hinv1.lvGood
          (fun a ha hac => absurd (mem_sortStr.mp ha) hac)
      · show (lvPrep m ns cyc).1.levels.map (fun lv => lv.1) =
          List.range ((lvPrep m ns cyc).1.counter + 1)
        rw [hlF, hcF, List.map_append, hinv1.levCtr, List.range_succ]
        simp
    obtain ⟨hinvF, hmonoF⟩ := ph3Run_spec hkeys hdeps hns (ns.length + 1)
      (sortStr (lvPrep m ns cyc).2)
      ⟨(lvPrep m ns cyc).1.deg, (lvPrep m ns cyc).1.processed,
       (lvPrep m ns cyc).1.counter + 1, (lvPrep m ns cyc).1.levels,
       (lvPrep m ns cyc).1.negFlag⟩ hinv3 (by omega)
    refine ⟨hinvF.negF, hinvF.procNodup, hinvF.procSub, hinvF.lvGood,
      hinvF.levCtr, ?_, ?_⟩
    · intro c hc
      refine hmonoF c ?_
      show c ∈ (lvPrep m ns cyc).1.processed
      rw [hprocF]
      exact List.mem_append.mpr (Or.inr (mem_sortStr.mpr hc))
    · intro v hv hvp
      have hne : remCnt m ns
          (ph3Run (revAdj m ns) (ns.length + 1) (sortStr (lvPrep m ns cyc).2)
            ⟨(lvPrep m ns cyc).1.deg, (lvPrep m ns cyc).1.processed,
             (lvPrep m ns cyc).1.counter + 1, (lvPrep m ns cyc).1.levels,
             (lvPrep m ns cyc).1.negFlag⟩).processed v ≠ 0 := by
        intro h0
        have := hinvF.zeroIn v hv (by simp) hvp h0
        simp at this
      exact remCnt_ne_zero_exists hne

/- ---------------------------------------------------------------------
   Claims C7, C4, C5
   --------------------------------------------------------------------- -/

theorem reaches_cycle_of_succ_mem {α : Type} {R : α → α → Prop}
    [DecidableEq α] {U : List α}
    (hsucc : ∀ v ∈ U, ∃ w, w ∈ U ∧ R v w) :
    ∀ v ∈ U, ∃ c, c ∈ U ∧ Relation.ReflTransGen R v c ∧
      Relation.TransGen R c c := by
  intro v hv
  rcases chain_build hsucc U.length v hv with ⟨rest, hlen, hchain, hU⟩
  have hnotnd : ¬ (v :: rest).Nodup := by
    intro hnd
    have h1 : (v :: rest).length = (v :: rest).toFinset.card :=
      (List.toFinset_card_of_nodup hnd).symm
    have h2 : (v :: rest).toFinset.card ≤ U.toFinset.card :=
      Finset.card_le_card (fun x hx =>
        List.mem_toFinset.mpr (hU x (List.mem_toFinset.mp hx)))
    have h3 : U.toFinset.card ≤ U.length := List.toFinset_card_le U
    have h4 : (v :: rest).length = U.length + 1 := by simp [hlen]
    omega
  rcases exists_dup_split hnotnd with ⟨s, a, t, r, hsplit⟩
  have hmem : a ∈ v :: rest := by
    rw [hsplit]
    exact List.mem_append.mpr (Or.inr (List.mem_cons_self a _))
  refine ⟨a, hU a hmem, chain_reach_aux rest v hchain a hmem, ?_⟩
  have hchain2 : List.Chain' R (a :: (t ++ a :: r)) := by
    have hh : List.Chain' R (s ++ (a :: (t ++ a :: r))) := by
      have hre : v :: rest = s ++ (a :: (t ++ a :: r)) := by
        rw [hsplit]
        simp
      rw [← hre]
      exact hchain
    exact (List.chain'_append.mp hh).2.1
  exact chain_transGen_aux _ a hchain2 a
    (List.mem_append.mpr (Or.inr (List.mem_cons_self a r)))

/-- C7: during the three-phase leveling reduction no in-degree counter is
ever decremented below zero: the negative-in-degree defect branch is
unreachable, so the defect flag of the embedding stays false. -/
theorem C7_no_negative_in_degree (m : Modules) (ns : List String)
    (hkeys : (m.map Prod.fst).Nodup) (hdeps : ∀ p ∈ m, (depKeys p.2).Nodup)
    (hns : ns.Nodup) :
    (topoLevels m ns).negFlag = false := by
  rw [topoLevels]
  exact (topoLevelsWith_main m ns hkeys hdeps hns _
    (refined_nodup hns) refined_sub_ns).1

theorem C7_witness : (topoLevels mC1ex nsC1ex).negFlag = false :=
  C7_no_negative_in_degree mC1ex nsC1ex (by decide) (by decide) (by decide)

/-- C4: the level sequencer assigns every node of the final node set to
exactly one emitted level (pre-cycle, the single cycle level, or
post-cycle): each node of the set occurs exactly once in the concatenation
of the emitted levels, and the levels contain only nodes of the set. -/
theorem C4_every_node_in_exactly_one_level (m : Modules) (ns : List String)
    (hkeys : (m.map Prod.fst).Nodup) (hdeps : ∀ p ∈ m, (depKeys p.2).Nodup)
    (hns : ns.Nodup) (hpath : ∀ p ∈ m, p.2.path = p.1) :
    (∀ v ∈ ns,
      (((topoLevels m ns).levels.map (fun lv => lv.2.2)).flatten).count v
        = 1) ∧
    (∀ v ∈ ((topoLevels m ns).levels.map (fun lv => lv.2.2)).flatten,
      v ∈ ns) := by
  rw [topoLevels]
  obtain ⟨_, hnodup, hsub, hgood, _, hcycP, hcomp⟩ :=
    topoLevelsWith_main m ns hkeys hdeps hns _
      (refined_nodup hns) refined_sub_ns
  have hjoin := hgood.flatten_eq
  constructor
  · intro v hv
    rw [hjoin]
    have hmem : v ∈ (topoLevelsWith m ns
        (filterOutUnusedNodes m (detectCycles m ns))).processed := by
      by_contra hvp
      have hvU : v ∈ ns.filter (fun x => !(topoLevelsWith m ns
          (filterOutUnusedNodes m (detectCycles m ns))).processed.contains x) :=
        List.mem_filter.mpr ⟨hv, by simpa using hvp⟩
      have hsucc : ∀ x ∈ ns.filter (fun x => !(topoLevelsWith m ns
          (filterOutUnusedNodes m (detectCycles m ns))).processed.contains x),
          ∃ w, w ∈ ns.filter (fun x => !(topoLevelsWith m ns
            (filterOutUnusedNodes m (detectCycles m ns))).processed.contains x)
            ∧ E m ns x w := by
        intro x hx
        have hx' := List.mem_filter.mp hx
        have hxns : x ∈ ns := hx'.1
        have hxP : x ∉ (topoLevelsWith m ns
            (filterOutUnusedNodes m (detectCycles m ns))).processed := by
          simpa using hx'.2
        rcases hcomp x hxns hxP with ⟨d, hd, hdP⟩
        exact ⟨d, List.mem_filter.mpr
          ⟨(depsNS_mem_ns hd).2, by simpa using hdP⟩, hd⟩
      rcases reaches_cycle_of_succ_mem hsucc v hvU with ⟨c, hcU, _, htg⟩
      have hc' := List.mem_filter.mp hcU
      have hcns : c ∈ ns := hc'.1
      have hcP : c ∉ (topoLevelsWith m ns
          (filterOutUnusedNodes m (detectCycles m ns))).processed := by
        simpa using hc'.2
      have hccyc : c ∈ filterOutUnusedNodes m (detectCycles m ns) :=
        cycles_in_refined hkeys hdeps hns hpath c hcns htg
      exact hcP (hcycP c hccyc)
    have hle := List.nodup_iff_count_le_one.mp hnodup v
    have hpos : 0 < (topoLevelsWith m ns
        (filterOutUnusedNodes m (detectCycles m ns))).processed.count v :=
      List.count_pos_iff_mem.mpr hmem
    omega
  · intro v hv
    rw [hjoin] at hv
    exact hsub v hv

theorem C4_witness :
    (∀ v ∈ nsC1ex,
      (((topoLevels mC1ex nsC1ex).levels.map (fun lv => lv.2.2)).flatten).count v
        = 1) ∧
    (∀ v ∈ ((topoLevels mC1ex nsC1ex).levels.map (fun lv => lv.2.2)).flatten,
      v ∈ nsC1ex) :=
  C4_every_node_in_exactly_one_level mC1ex nsC1ex (by decide) (by decide)
    (by decide) (by decide)

/-- C5: for every dependency edge `A → B` of the leveled graph with neither
endpoint in the refined cycle set, the level index printed for `B` is
strictly smaller than the one printed for `A`. -/
theorem C5_dependency_on_strictly_lower_level (m : Modules) (ns : List String)
    (hkeys : (m.map Prod.fst).Nodup) (hdeps : ∀ p ∈ m, (depKeys p.2).Nodup)
    (hns : ns.Nodup) (A B : String) (hE : E m ns A B)
    (hA : A ∉ filterOutUnusedNodes m (detectCycles m ns))
    (hB : B ∉ filterOutUnusedNodes m (detectCycles m ns))
    (L1 : List (Nat × String × List String)) (lvA : Nat × String × List String)
    (L2 : List (Nat × String × List String))
    (hsplitA : (topoLevels m ns).levels = L1 ++ lvA :: L2)
    (hAin : A ∈ lvA.2.2)
    (L1' : List (Nat × String × List String)) (lvB : Nat × String × List String)
    (L2' : List (Nat × String × List String))
    (hsplitB : (topoLevels m ns).levels = L1' ++ lvB :: L2')
    (hBin : B ∈ lvB.2.2) :
    lvB.1 < lvA.1 := by
  obtain ⟨_, hnodup, _, hgood, hctr, _, _⟩ :=
    topoLevelsWith_main m ns hkeys hdeps hns _
      (refined_nodup hns) refined_sub_ns
  rw [topoLevels] at hsplitA hsplitB
  have hBjoin : B ∈ (L1.map (fun l => l.2.2)).flatten :=
    hgood.dep_before L1 lvA L2 hsplitA A hAin hA B hE
  rcases mem_join_map_levels.mp hBjoin with ⟨lvB2, hlvB2mem, hlvB2in⟩
  rcases List.append_of_mem hlvB2mem with ⟨M1, M2, hM⟩
  have hsplitC : (topoLevelsWith m ns
      (filterOutUnusedNodes m (detectCycles m ns))).levels =
      M1 ++ lvB2 :: (M2 ++ lvA :: L2) := by
    rw [hsplitA, hM]
    simp
  have hjnd : (((topoLevelsWith m ns
      (filterOutUnusedNodes m (detectCycles m ns))).levels.map
      (fun l => l.2.2)).flatten).Nodup := by
    rw [hgood.flatten_eq]
    exact hnodup
  have hBeq : lvB2 = lvB := mem_join_split hjnd hsplitC hsplitB hlvB2in hBin
  have hmapC : List.range (topoLevelsWith m ns
      (filterOutUnusedNodes m (detectCycles m ns))).counter =
      M1.map (fun l => l.1) ++ lvB2.1 ::
        ((M2.map (fun l => l.1)) ++ lvA.1 :: (L2.map (fun l => l.1))) := by
    rw [← hctr, hsplitC]
    simp
  have hlt : lvB2.1 < lvA.1 := range_split_lt hmapC
  rw [hBeq] at hlt
  exact hlt

def infoChA : ModuleInfo := ⟨"A", "own/a", false, "", "own", 0, [("B", "v")], true⟩

def infoChB : ModuleInfo := ⟨"B", "own/b", false, "", "own", 0, [("C", "v")], true⟩

def infoChC : ModuleInfo := ⟨"C", "own/c", false, "", "own", 0, [], true⟩

def mChEx : Modules := [("A", infoChA), ("B", infoChB), ("C", infoChC)]

def nsChEx : List String := determineNodesToGraph mChEx ["A", "B", "C"] false

theorem C5_witness :
    E mChEx nsChEx "A" "B" ∧
    "A" ∉ filterOutUnusedNodes mChEx (detectCycles mChEx nsChEx) ∧
    "B" ∉ filterOutUnusedNodes mChEx (detectCycles mChEx nsChEx) ∧
    (1 : Nat) < 2 :=
  ⟨(by decide : "B" ∈ depsNS mChEx nsChEx "A"), by decide, by decide,
   C5_dependency_on_strictly_lower_level mChEx nsChEx (by decide) (by decide)
     (by decide) "A" "B" (by decide : "B" ∈ depsNS mChEx nsChEx "A")
     (by decide) (by decide)
     [(0, "", ["C"]), (1, "", ["B"])] (2, "", ["A"]) []
     (by decide) (by decide)
     [(0, "", ["C"])] (1, "", ["B"]) [(2, "", ["A"])]
     (by decide) (by decide)⟩

end Depgraph
